import Mathlib

/-!
Shallow embedding of the `TaskCollection` class
(`src/apps/rush-lib/src/cli/actions/CheckAction.ts`, second document in the file):
a registry of named tasks with dependency/dependent edges, DFS cyclic-dependency
detection over the `dependents` relation, memoized critical-path computation and
a stable sort of the tasks by descending critical-path length.

Tasks are modelled by name: the JS `Map<string, ITask>` and the `Set<ITask>`
fields become insertion-ordered lists of names (JS `Map`/`Set` preserve
insertion order, and `add`/`set` on an existing element is a no-op for sets).
Mutation of the live task objects becomes explicit state passing of the whole
collection.  The two recursive private methods are given a structural fuel
parameter (the JS recursion has no fuel; `getOrderedTasks` supplies enough fuel
and we prove it is never exhausted on the states the claims quantify over).
-/

/-- Modelled from the spec: the `TaskStatus` enumeration
(`./TaskStatus`, not part of the excerpt): "status: one of a small enumerated
set {Ready, Executing, Success, Failure, Blocked, ...}". -/
inductive TaskStatus where
  | Ready
  | Executing
  | Success
  | Failure
  | Blocked
  deriving DecidableEq

/-- The fields the scheduler adds to a task definition (`ITask`).  The
caller-supplied definition fields are opaque to the scheduler; only `name` is
relevant, so the record keeps `name` plus the five scheduler fields. -/
structure ITask where
  name : String
  dependencies : List String
  dependents : List String
  status : TaskStatus
  criticalPathLength : Option Nat
  deriving DecidableEq

/-- The task registry: `private _tasks: Map<string, ITask>`, in insertion
order.  (`_quietMode` and `_terminal` only control logging and are omitted.) -/
structure TaskCollection where
  tasks : List ITask
  deriving DecidableEq

/-- The errors thrown by `TaskCollection` methods (each `throw new Error(...)`
in the source gets one constructor; the cyclic-dependency message carries the
list of task names that the source joins into the message string). -/
inductive TCError where
  | duplicateTask
  | taskNotRegistered (name : String)
  | projectNotRegistered (name : String)
  | cyclicDependency (message : List String)
  deriving DecidableEq

def taskNames (tc : TaskCollection) : List String :=
  tc.tasks.map (·.name)

def findTask (tc : TaskCollection) (taskName : String) : Option ITask :=
  tc.tasks.find? (fun t => t.name = taskName)

/-- `public hasTask(taskName: string): boolean { return this._tasks.has(taskName); }` -/
def hasTask (tc : TaskCollection) (taskName : String) : Bool :=
  (findTask tc taskName).isSome

def dependenciesOf (tc : TaskCollection) (taskName : String) : List String :=
  ((findTask tc taskName).map (·.dependencies)).getD []

def dependentsOf (tc : TaskCollection) (taskName : String) : List String :=
  ((findTask tc taskName).map (·.dependents)).getD []

def cplOf (tc : TaskCollection) (taskName : String) : Option Nat :=
  (findTask tc taskName).bind (·.criticalPathLength)

/-- `public addTask(taskDefinition: ITaskDefinition): void`: throws if the name
is already registered, otherwise stores the definition with empty
dependency/dependent sets, status `Ready` and no critical path length.
Returns the post-state together with the error, if any (a JS `throw` does not
roll back earlier mutations, so the post-state must be kept on error too). -/
def addTask (tc : TaskCollection) (taskName : String) : TaskCollection × Option TCError :=
  if hasTask tc taskName then
    (tc, some .duplicateTask)
  else
    (⟨tc.tasks ++ [⟨taskName, [], [], .Ready, none⟩]⟩, none)

/-- JS `Set.prototype.add` on a set represented as an insertion-ordered list. -/
def setAdd (l : List String) (x : String) : List String :=
  if x ∈ l then l else l ++ [x]

/-- Apply `f` to the task registered under `taskName` (all `f`s used below
keep `name` intact, so this models mutating the task object in the map). -/
def updateTask (tc : TaskCollection) (taskName : String) (f : ITask → ITask) : TaskCollection :=
  ⟨tc.tasks.map (fun t => if t.name = taskName then f t else t)⟩

/-- One iteration of the `addDependencies` loop body after the registration
check: `task.dependencies.add(dependency); dependency.dependents.add(task);`. -/
def addEdge (tc : TaskCollection) (taskName depName : String) : TaskCollection :=
  let tc1 := updateTask tc taskName (fun t => { t with dependencies := setAdd t.dependencies depName })
  updateTask tc1 depName (fun t => { t with dependents := setAdd t.dependents taskName })

/-- The `for (const dependencyName of taskDependencies)` loop: each name is
checked for registration and, if registered, both edge directions are added;
the first unregistered name aborts the loop with an error, keeping the
mutations already performed. -/
def addDepsLoop (taskName : String) : TaskCollection → List String → TaskCollection × Option TCError
  | tc, [] => (tc, none)
  | tc, d :: rest =>
    if hasTask tc d then
      addDepsLoop taskName (addEdge tc taskName d) rest
    else
      (tc, some (.projectNotRegistered d))

/-- `public addDependencies(taskName: string, taskDependencies: string[]): void`.
(The `!taskDependencies` null check cannot arise for a `List` argument and is
not modelled.) -/
def addDependencies (tc : TaskCollection) (taskName : String) (taskDependencies : List String) :
    TaskCollection × Option TCError :=
  if hasTask tc taskName then
    addDepsLoop taskName tc taskDependencies
  else
    (tc, some (.taskNotRegistered taskName))

/-- Result of `_checkForCyclicDependencies`: normal return (with the final
`alreadyCheckedProjects` set), a thrown cyclic-dependency error (carrying the
name chain `[...dependencyChain, task.name].reverse()` of the message), or
exhaustion of the model's fuel (never happens with the fuel supplied by
`getOrderedTasks`, as proved below). -/
inductive CycleCheckResult where
  | cycle (message : List String)
  | ok (checked : List String)
  | fuelOut
  deriving DecidableEq

/-- `private _checkForCyclicDependencies(tasks, dependencyChain, alreadyCheckedProjects)`:
depth-first walk of the `dependents` relation.  `tasks` is the iteration
front (task names), `chain` the current path stack, `checked` the global
already-checked set.  Fuel is a modelling artifact making the recursion
structural. -/
def checkCyclicF (tc : TaskCollection) :
    Nat → List String → List String → List String → CycleCheckResult
  | 0, _, _, _ => .fuelOut
  | _ + 1, [], _, checked => .ok checked
  | fuel + 1, t :: rest, chain, checked =>
    if t ∈ chain then
      .cycle ((chain ++ [t]).reverse)
    else if t ∈ checked then
      checkCyclicF tc fuel rest chain checked
    else
      match checkCyclicF tc fuel (dependentsOf tc t) (chain ++ [t]) (t :: checked) with
      | .cycle e => .cycle e
      | .fuelOut => .fuelOut
      | .ok checked1 => checkCyclicF tc fuel rest chain checked1

/-- Memoize a computed critical path length:
`task.criticalPathLength = v` on the task registered under `taskName`. -/
def setCPL (tc : TaskCollection) (taskName : String) (v : Nat) : TaskCollection :=
  updateTask tc taskName (fun t => { t with criticalPathLength := some v })

/-- `private _calculateCriticalPaths(task: ITask): number`, lifted to a list of
task names processed in order (the source's `this._tasks.forEach(...)` and the
inner `task.dependents.forEach(...)` both reduce to this list traversal).
Returns the updated collection and the list of computed values; `none` means
the task object could not be found (impossible for the reachable states the
claims are about) or the fuel ran out.  `(lens.foldl Nat.max 0) + 1` equals the
source's `Math.max(...depsLengths) + 1` because the branch guarantees
`lens` is the nonempty list of the dependents' (non-negative) lengths. -/
def calcCPs (tc0 : TaskCollection) :
    Nat → TaskCollection → List String → Option (TaskCollection × List Nat)
  | 0, _, _ => none
  | _ + 1, tc, [] => some (tc, [])
  | fuel + 1, tc, n :: rest =>
    match findTask tc n with
    | none => none
    | some task =>
      match task.criticalPathLength with
      | some v =>
        match calcCPs tc0 fuel tc rest with
        | none => none
        | some (tc', vs) => some (tc', v :: vs)
      | none =>
        if task.dependents.isEmpty then
          match calcCPs tc0 fuel (setCPL tc n 0) rest with
          | none => none
          | some (tc', vs) => some (tc', 0 :: vs)
        else
          match calcCPs tc0 fuel tc task.dependents with
          | none => none
          | some (tc1, lens) =>
            match calcCPs tc0 fuel (setCPL tc1 n ((lens.foldl Nat.max 0) + 1)) rest with
            | none => none
            | some (tc', vs) => some (tc', ((lens.foldl Nat.max 0) + 1) :: vs)

/-- The sort key passed to `Sort.sortBy`: `(task) => -task.criticalPathLength!`
(`getD 0` stands for the non-null assertion; every task has a computed length
at the point of sorting). -/
def sortKey (t : ITask) : Int :=
  -((t.criticalPathLength.getD 0 : Int))

def taskOrder (a b : ITask) : Prop :=
  sortKey a ≤ sortKey b

instance : DecidableRel taskOrder :=
  fun a b => inferInstanceAs (Decidable (sortKey a ≤ sortKey b))

/-- Modelled from the spec: `Sort.sortBy` of `@microsoft/node-core-library`
(part of this repository but not of the excerpt) — "Stable-sort descending by
`criticalPathLength` ... stable sort keeps original collection order for equal
keys".  A stable sort ascending by the key `-criticalPathLength`. -/
def sortByKey (l : List ITask) : List ITask :=
  List.insertionSort taskOrder l

/-- Enough fuel for both recursive phases of `getOrderedTasks` (proved below). -/
def tcFuel (tc : TaskCollection) : Nat :=
  (tc.tasks.length + 1) * (tc.tasks.length + 1)

/-- `public getOrderedTasks(): ITask[]`: run the cycle check over all tasks,
compute every critical path length, collect all tasks into the build queue and
stable-sort it descending by critical path length.  The outer `Option` is the
fuel artifact (`none` never occurs on reachable states); the `Except` carries
the thrown cyclic-dependency message.  The returned pair is the build queue
together with the post-state of the registry. -/
def getOrderedTasks (tc : TaskCollection) :
    Option (Except (List String) (List ITask × TaskCollection)) :=
  match checkCyclicF tc (tcFuel tc) (taskNames tc) [] [] with
  | .fuelOut => none
  | .cycle e => some (.error e)
  | .ok _ =>
    match calcCPs tc (tcFuel tc) tc (taskNames tc) with
    | none => none
    | some (tc', _) => some (.ok (sortByKey tc'.tasks, tc'))

/-! ### The dependency graph of a collection -/

/-- `b` is a direct dependent of `a` (the edge the cycle detector walks). -/
def edgeTo (tc : TaskCollection) (a b : String) : Prop :=
  b ∈ dependentsOf tc a

instance (tc : TaskCollection) (a b : String) : Decidable (edgeTo tc a b) :=
  inferInstanceAs (Decidable (b ∈ dependentsOf tc a))

/-- A nonempty path in the dependents graph. -/
inductive DepPath (tc : TaskCollection) : String → String → Prop
  | single {a b} : edgeTo tc a b → DepPath tc a b
  | cons {a b c} : edgeTo tc a b → DepPath tc b c → DepPath tc a c

/-- The acyclicity property the cycle detector is meant to decide. -/
def Acyclic (tc : TaskCollection) : Prop :=
  ∀ a, ¬ DepPath tc a a

/-- The states produced by sequences of successful `addTask` and
`addDependencies` calls starting from a fresh collection (`hasTask` and failed
calls do not change the state, so such sequences reach exactly these states). -/
inductive Reachable : TaskCollection → Prop
  | empty : Reachable ⟨[]⟩
  | addTask {tc tc' n} : Reachable tc → addTask tc n = (tc', none) → Reachable tc'
  | addDeps {tc tc' n ds} : Reachable tc → addDependencies tc n ds = (tc', none) → Reachable tc'

/-- A task with the memo field erased: everything `getOrderedTasks` is not
allowed to change. -/
def stripCPL (t : ITask) : ITask :=
  { t with criticalPathLength := none }

/-! ### Basic lemmas about the registry primitives -/

theorem mem_setAdd {l : List String} {x y : String} :
    x ∈ setAdd l y ↔ x ∈ l ∨ x = y := by
  unfold setAdd
  split <;> rename_i h
  · constructor
    · exact Or.inl
    · rintro (hx | rfl) <;> [exact hx; exact h]
  · simp

theorem setAdd_nodup {l : List String} {y : String} (h : l.Nodup) : (setAdd l y).Nodup := by
  unfold setAdd
  split <;> rename_i hy
  · exact h
  · simpa [List.nodup_append] using ⟨h, hy⟩

theorem setAdd_eq_self {l : List String} {y : String} (h : y ∈ l) : setAdd l y = l := by
  unfold setAdd
  exact if_pos h

theorem subset_setAdd {l : List String} {y : String} : l ⊆ setAdd l y := by
  unfold setAdd
  split
  · exact fun _ h => h
  · exact fun _ h => List.mem_append_left _ h

theorem mem_setAdd_self {l : List String} {y : String} : y ∈ setAdd l y := by
  unfold setAdd
  split <;> simp [*]

theorem find?_map_name (l : List ITask) (g : ITask → ITask)
    (hg : ∀ t, (g t).name = t.name) (n : String) :
    (l.map g).find? (fun t => t.name = n) = (l.find? (fun t => t.name = n)).map g := by
  induction l with
  | nil => rfl
  | cons t l ih =>
    by_cases h : t.name = n <;>
      simp [List.find?_cons, hg, h, ih]

theorem findTask_name {tc : TaskCollection} {n : String} {t : ITask}
    (h : findTask tc n = some t) : t.name = n := by
  have := List.find?_some h
  simpa using this

theorem mem_of_findTask {tc : TaskCollection} {n : String} {t : ITask}
    (h : findTask tc n = some t) : t ∈ tc.tasks :=
  List.mem_of_find?_eq_some h

theorem hasTask_iff_mem {tc : TaskCollection} {n : String} :
    hasTask tc n = true ↔ n ∈ taskNames tc := by
  unfold hasTask findTask taskNames
  rw [Option.isSome_iff_exists]
  constructor
  · rintro ⟨t, ht⟩
    exact List.mem_map.mpr ⟨t, List.mem_of_find?_eq_some ht, by simpa using List.find?_some ht⟩
  · rintro ht
    obtain ⟨t, htm, htn⟩ := List.mem_map.mp ht
    rcases h : tc.tasks.find? (fun t => t.name = n) with _ | u
    · rw [List.find?_eq_none] at h
      exact absurd (by simpa using htn) (by simpa using h t htm)
    · exact ⟨u, h⟩

theorem findTask_updateTask (tc : TaskCollection) (m : String) (f : ITask → ITask)
    (hf : ∀ t, (f t).name = t.name) (n : String) :
    findTask (updateTask tc m f) n =
      (findTask tc n).map (fun t => if t.name = m then f t else t) := by
  unfold findTask updateTask
  exact find?_map_name _ _ (fun t => by by_cases h : t.name = m <;> simp [h, hf]) n

/-- The combined effect of one `addEdge` on a single task record. -/
def edgeApply (n d : String) (t : ITask) : ITask :=
  let t1 := if t.name = n then { t with dependencies := setAdd t.dependencies d } else t
  if t1.name = d then { t1 with dependents := setAdd t1.dependents n } else t1

theorem edgeApply_name (n d : String) (t : ITask) : (edgeApply n d t).name = t.name := by
  by_cases h1 : t.name = n <;> by_cases h2 : t.name = d <;>
    simp [edgeApply, h1, h2] <;> split <;> simp_all

theorem edgeApply_status (n d : String) (t : ITask) : (edgeApply n d t).status = t.status := by
  by_cases h1 : t.name = n <;> by_cases h2 : t.name = d <;>
    simp [edgeApply, h1, h2] <;> split <;> simp_all

theorem edgeApply_cpl (n d : String) (t : ITask) :
    (edgeApply n d t).criticalPathLength = t.criticalPathLength := by
  by_cases h1 : t.name = n <;> by_cases h2 : t.name = d <;>
    simp [edgeApply, h1, h2] <;> split <;> simp_all

theorem edgeApply_dependencies (n d : String) (t : ITask) :
    (edgeApply n d t).dependencies =
      if t.name = n then setAdd t.dependencies d else t.dependencies := by
  by_cases h1 : t.name = n <;> by_cases h2 : t.name = d <;>
    simp [edgeApply, h1, h2] <;> split <;> simp_all

theorem edgeApply_dependents (n d : String) (t : ITask) :
    (edgeApply n d t).dependents =
      if t.name = d then setAdd t.dependents n else t.dependents := by
  by_cases h1 : t.name = n <;> by_cases h2 : t.name = d <;>
    simp [edgeApply, h1, h2] <;> split <;> simp_all

theorem addEdge_tasks (tc : TaskCollection) (n d : String) :
    (addEdge tc n d).tasks = tc.tasks.map (edgeApply n d) := by
  unfold addEdge updateTask edgeApply
  simp only [List.map_map]
  rfl

theorem findTask_addEdge (tc : TaskCollection) (n d a : String) :
    findTask (addEdge tc n d) a = (findTask tc a).map (edgeApply n d) := by
  rw [show findTask (addEdge tc n d) a = ((addEdge tc n d).tasks.find? (fun t => t.name = a))
      from rfl, addEdge_tasks]
  exact find?_map_name _ _ (edgeApply_name n d) a

theorem taskNames_addEdge (tc : TaskCollection) (n d : String) :
    taskNames (addEdge tc n d) = taskNames tc := by
  unfold taskNames
  rw [addEdge_tasks, List.map_map]
  exact List.map_congr_left (fun t _ => edgeApply_name n d t)

theorem hasTask_addEdge (tc : TaskCollection) (n d a : String) :
    hasTask (addEdge tc n d) a = hasTask tc a := by
  unfold hasTask
  rw [findTask_addEdge]
  cases findTask tc a <;> rfl

theorem cplOf_addEdge (tc : TaskCollection) (n d a : String) :
    cplOf (addEdge tc n d) a = cplOf tc a := by
  unfold cplOf
  rw [findTask_addEdge]
  cases findTask tc a with
  | none => rfl
  | some t => simp [edgeApply_cpl]

theorem dependenciesOf_addEdge (tc : TaskCollection) (n d a : String) :
    dependenciesOf (addEdge tc n d) a =
      if a = n then
        match findTask tc n with
        | some t => setAdd t.dependencies d
        | none => []
      else dependenciesOf tc a := by
  unfold dependenciesOf
  rw [findTask_addEdge]
  by_cases h : a = n
  · subst h
    cases hf : findTask tc a with
    | none => simp
    | some t => simp [edgeApply_dependencies, findTask_name hf]
  · cases hf : findTask tc a with
    | none => simp [h]
    | some t =>
      have hn : t.name ≠ n := by rw [findTask_name hf]; exact h
      simp [h, edgeApply_dependencies, hn]

theorem dependentsOf_addEdge (tc : TaskCollection) (n d a : String) :
    dependentsOf (addEdge tc n d) a =
      if a = d then
        match findTask tc d with
        | some t => setAdd t.dependents n
        | none => []
      else dependentsOf tc a := by
  unfold dependentsOf
  rw [findTask_addEdge]
  by_cases h : a = d
  · subst h
    cases hf : findTask tc a with
    | none => simp
    | some t => simp [edgeApply_dependents, findTask_name hf]
  · cases hf : findTask tc a with
    | none => simp [h]
    | some t =>
      have hn : t.name ≠ d := by rw [findTask_name hf]; exact h
      simp [h, edgeApply_dependents, hn]

theorem setCPL_tasks (tc : TaskCollection) (n : String) (v : Nat) :
    (setCPL tc n v).tasks =
      tc.tasks.map (fun t => if t.name = n then { t with criticalPathLength := some v } else t) :=
  rfl

theorem findTask_setCPL (tc : TaskCollection) (n : String) (v : Nat) (a : String) :
    findTask (setCPL tc n v) a =
      (findTask tc a).map
        (fun t => if t.name = n then { t with criticalPathLength := some v } else t) :=
  findTask_updateTask tc n (fun t => { t with criticalPathLength := some v }) (fun _ => rfl) a

theorem taskNames_setCPL (tc : TaskCollection) (n : String) (v : Nat) :
    taskNames (setCPL tc n v) = taskNames tc := by
  unfold taskNames
  rw [setCPL_tasks, List.map_map]
  exact List.map_congr_left (fun t _ => by simp only [Function.comp_apply]; split <;> rfl)

theorem dependentsOf_setCPL (tc : TaskCollection) (n : String) (v : Nat) (a : String) :
    dependentsOf (setCPL tc n v) a = dependentsOf tc a := by
  unfold dependentsOf
  rw [findTask_setCPL]
  cases findTask tc a with
  | none => rfl
  | some t => simp only [Option.map_map, Option.map_some']; split <;> rfl

theorem dependenciesOf_setCPL (tc : TaskCollection) (n : String) (v : Nat) (a : String) :
    dependenciesOf (setCPL tc n v) a = dependenciesOf tc a := by
  unfold dependenciesOf
  rw [findTask_setCPL]
  cases findTask tc a with
  | none => rfl
  | some t => simp only [Option.map_map, Option.map_some']; split <;> rfl

theorem cplOf_setCPL (tc : TaskCollection) (n : String) (v : Nat) (a : String) :
    cplOf (setCPL tc n v) a =
      if a = n then (findTask tc n).map (fun _ => v) else cplOf tc a := by
  unfold cplOf
  rw [findTask_setCPL]
  by_cases h : a = n
  · subst h
    cases hf : findTask tc a with
    | none => simp
    | some t => simp [findTask_name hf]
  · cases hf : findTask tc a with
    | none => simp [h]
    | some t =>
      have hn : t.name ≠ n := by rw [findTask_name hf]; exact h
      simp [h, hn]

theorem cplOf_eq_some_of_findTask {tc : TaskCollection} {n : String} {t : ITask}
    (hf : findTask tc n = some t) {v : Nat} (hv : t.criticalPathLength = some v) :
    cplOf tc n = some v := by
  unfold cplOf
  rw [hf]
  simpa using hv

/-! ### Framing: equality of everything except the memo field -/

/-- Two collections agree on names, edges and statuses (only the memoized
critical path lengths may differ). -/
def FrameEq (tc tc' : TaskCollection) : Prop :=
  tc.tasks.map stripCPL = tc'.tasks.map stripCPL

theorem FrameEq.rfl (tc : TaskCollection) : FrameEq tc tc := Eq.refl _

theorem FrameEq.trans {a b c : TaskCollection} (h1 : FrameEq a b) (h2 : FrameEq b c) :
    FrameEq a c := Eq.trans h1 h2

theorem stripCPL_name (t : ITask) : (stripCPL t).name = t.name := Eq.refl _

theorem frameEq_setCPL (tc : TaskCollection) (n : String) (v : Nat) :
    FrameEq tc (setCPL tc n v) := by
  unfold FrameEq
  rw [setCPL_tasks, List.map_map]
  refine (List.map_congr_left (fun t _ => ?_)).symm
  simp only [Function.comp_apply]
  split <;> rfl

theorem find?_stripCPL_congr {l l' : List ITask}
    (h : l.map stripCPL = l'.map stripCPL) (n : String) :
    (l.find? (fun t => t.name = n)).map stripCPL =
      (l'.find? (fun t => t.name = n)).map stripCPL := by
  induction l generalizing l' with
  | nil =>
    cases l' with
    | nil => rfl
    | cons u l₂ => simp at h
  | cons t l ih =>
    cases l' with
    | nil => simp at h
    | cons u l₂ =>
      simp only [List.map_cons, List.cons.injEq] at h
      obtain ⟨h1, h2⟩ := h
      have hn : u.name = t.name := by
        rw [← stripCPL_name u, ← h1, stripCPL_name]
      by_cases ht : t.name = n
      · simp [List.find?_cons, ht, hn, h1]
      · simp [List.find?_cons, ht, hn, ih h2]

theorem FrameEq.findTask_strip {tc tc' : TaskCollection} (h : FrameEq tc tc') (n : String) :
    (findTask tc n).map stripCPL = (findTask tc' n).map stripCPL :=
  find?_stripCPL_congr h n

theorem FrameEq.symm {a b : TaskCollection} (h : FrameEq a b) : FrameEq b a := Eq.symm h

theorem FrameEq.taskNames_eq {tc tc' : TaskCollection} (h : FrameEq tc tc') :
    taskNames tc = taskNames tc' := by
  unfold taskNames
  have e1 : tc.tasks.map (·.name) = (tc.tasks.map stripCPL).map (·.name) := by
    rw [List.map_map]
    exact List.map_congr_left (fun t _ => Eq.refl _)
  have e2 : tc'.tasks.map (·.name) = (tc'.tasks.map stripCPL).map (·.name) := by
    rw [List.map_map]
    exact List.map_congr_left (fun t _ => Eq.refl _)
  rw [e1, e2, h]

theorem FrameEq.length_eq {tc tc' : TaskCollection} (h : FrameEq tc tc') :
    tc.tasks.length = tc'.tasks.length := by
  have := h.taskNames_eq
  unfold taskNames at this
  calc tc.tasks.length = (tc.tasks.map (·.name)).length := (List.length_map _ _).symm
    _ = (tc'.tasks.map (·.name)).length := by rw [this]
    _ = tc'.tasks.length := List.length_map _ _

theorem FrameEq.dependentsOf_eq {tc tc' : TaskCollection} (h : FrameEq tc tc') (n : String) :
    dependentsOf tc n = dependentsOf tc' n := by
  have hs := h.findTask_strip n
  unfold dependentsOf
  cases h1 : findTask tc n <;> cases h2 : findTask tc' n <;>
    rw [h1, h2] at hs <;> simp at hs ⊢
  calc _ = (stripCPL _).dependents := Eq.refl _
    _ = (stripCPL _).dependents := by rw [hs]
    _ = _ := Eq.refl _

theorem FrameEq.dependenciesOf_eq {tc tc' : TaskCollection} (h : FrameEq tc tc') (n : String) :
    dependenciesOf tc n = dependenciesOf tc' n := by
  have hs := h.findTask_strip n
  unfold dependenciesOf
  cases h1 : findTask tc n <;> cases h2 : findTask tc' n <;>
    rw [h1, h2] at hs <;> simp at hs ⊢
  calc _ = (stripCPL _).dependencies := Eq.refl _
    _ = (stripCPL _).dependencies := by rw [hs]
    _ = _ := Eq.refl _

theorem FrameEq.hasTask_eq {tc tc' : TaskCollection} (h : FrameEq tc tc') (n : String) :
    hasTask tc n = hasTask tc' n := by
  have hs := h.findTask_strip n
  unfold hasTask
  cases h1 : findTask tc n <;> cases h2 : findTask tc' n <;>
    rw [h1, h2] at hs <;> simp at hs ⊢

theorem FrameEq.edgeTo_iff {tc tc' : TaskCollection} (h : FrameEq tc tc') (a b : String) :
    edgeTo tc a b ↔ edgeTo tc' a b := by
  unfold edgeTo
  rw [h.dependentsOf_eq a]

theorem FrameEq.depPath {tc tc' : TaskCollection} (h : FrameEq tc tc') {a b : String}
    (hp : DepPath tc a b) : DepPath tc' a b := by
  induction hp with
  | single he => exact .single ((h.edgeTo_iff _ _).mp he)
  | cons he _ ih => exact .cons ((h.edgeTo_iff _ _).mp he) ih

theorem FrameEq.acyclic_iff {tc tc' : TaskCollection} (h : FrameEq tc tc') :
    Acyclic tc ↔ Acyclic tc' := by
  constructor
  · intro ha a hp
    exact ha a (h.symm.depPath hp)
  · intro ha a hp
    exact ha a (h.depPath hp)

/-! ### Paths and chains in the dependents graph -/

theorem edgeTo_registered {tc : TaskCollection} {a b : String} (h : edgeTo tc a b) :
    a ∈ taskNames tc := by
  unfold edgeTo dependentsOf at h
  cases hf : findTask tc a with
  | none => rw [hf] at h; simp at h
  | some t =>
    have := mem_of_findTask hf
    exact (findTask_name hf) ▸ List.mem_map.mpr ⟨t, this, Eq.refl _⟩

theorem depPath_of_chain {tc : TaskCollection} :
    ∀ (l : List String) (a b : String), List.Chain' (edgeTo tc) (a :: (l ++ [b])) →
      DepPath tc a b := by
  intro l
  induction l with
  | nil =>
    intro a b h
    exact .single (List.chain'_cons.mp h).1
  | cons c l ih =>
    intro a b h
    rw [List.cons_append, List.chain'_cons] at h
    exact .cons h.1 (ih c b h.2)

theorem chain'_snoc {α : Type} {R : α → α → Prop} {l : List α} {a b : α}
    (h : List.Chain' R (l ++ [a])) (hab : R a b) : List.Chain' R ((l ++ [a]) ++ [b]) := by
  rw [List.chain'_append]
  refine ⟨h, List.chain'_singleton b, ?_⟩
  intro x hx y hy
  rw [List.getLast?_concat] at hx
  simp at hx hy
  subst hx
  subst hy
  exact hab

theorem depPath_self_of_chain_mem {tc : TaskCollection} {stack : List String} {m : String}
    (hm : m ∈ stack) (hc : List.Chain' (edgeTo tc) (stack ++ [m])) : DepPath tc m m := by
  obtain ⟨s₁, s₂, rfl⟩ := List.append_of_mem hm
  have : List.Chain' (edgeTo tc) ((m :: s₂) ++ [m]) :=
    hc.suffix (by refine ⟨s₁, ?_⟩; simp)
  exact depPath_of_chain s₂ m m (by simpa using this)

theorem not_mem_stack_of_chain {tc : TaskCollection} {stack : List String} {m : String}
    (hac : Acyclic tc) (hc : List.Chain' (edgeTo tc) (stack ++ [m])) : m ∉ stack :=
  fun hm => hac m (depPath_self_of_chain_mem hm hc)

/-! ### The registry invariant -/

theorem dependenciesOf_eq_of_findTask {tc : TaskCollection} {n : String} {t : ITask}
    (h : findTask tc n = some t) : dependenciesOf tc n = t.dependencies := by
  unfold dependenciesOf
  rw [h]
  rfl

theorem dependentsOf_eq_of_findTask {tc : TaskCollection} {n : String} {t : ITask}
    (h : findTask tc n = some t) : dependentsOf tc n = t.dependents := by
  unfold dependentsOf
  rw [h]
  rfl

theorem dependenciesOf_eq_nil_of_none {tc : TaskCollection} {n : String}
    (h : findTask tc n = none) : dependenciesOf tc n = [] := by
  unfold dependenciesOf
  rw [h]
  rfl

theorem dependentsOf_eq_nil_of_none {tc : TaskCollection} {n : String}
    (h : findTask tc n = none) : dependentsOf tc n = [] := by
  unfold dependentsOf
  rw [h]
  rfl

/-- The invariant every reachable registry satisfies: unique names, all edges
between registered tasks, edge sets without duplicates, `dependencies` and
`dependents` mutually inverse, and no critical path length computed yet. -/
structure RegInv (tc : TaskCollection) : Prop where
  nodupNames : (taskNames tc).Nodup
  depsReg : ∀ t ∈ tc.tasks, ∀ d ∈ t.dependencies, d ∈ taskNames tc
  depsdReg : ∀ t ∈ tc.tasks, ∀ d ∈ t.dependents, d ∈ taskNames tc
  depsNodup : ∀ t ∈ tc.tasks, t.dependencies.Nodup
  depsdNodup : ∀ t ∈ tc.tasks, t.dependents.Nodup
  mutualInv : ∀ a b : String, b ∈ dependenciesOf tc a ↔ a ∈ dependentsOf tc b
  cplNone : ∀ t ∈ tc.tasks, t.criticalPathLength = none

theorem addTask_success {tc tc' : TaskCollection} {n : String}
    (h : addTask tc n = (tc', none)) :
    hasTask tc n = false ∧ tc' = ⟨tc.tasks ++ [⟨n, [], [], .Ready, none⟩]⟩ := by
  unfold addTask at h
  split at h
  · simp at h
  · rename_i hh
    simp only [Prod.mk.injEq] at h
    exact ⟨Bool.not_eq_true _ ▸ hh, h.1.symm⟩

theorem taskNames_addTask (tc : TaskCollection) (n : String) :
    taskNames ⟨tc.tasks ++ [⟨n, [], [], .Ready, none⟩]⟩ = taskNames tc ++ [n] := by
  unfold taskNames
  simp

theorem findTask_addTask (tc : TaskCollection) (n a : String) :
    findTask ⟨tc.tasks ++ [⟨n, [], [], .Ready, none⟩]⟩ a =
      (findTask tc a).or (if n = a then some ⟨n, [], [], .Ready, none⟩ else none) := by
  unfold findTask
  rw [show (⟨tc.tasks ++ [⟨n, [], [], .Ready, none⟩]⟩ : TaskCollection).tasks
      = tc.tasks ++ [⟨n, [], [], .Ready, none⟩] from rfl, List.find?_append]
  congr 1
  by_cases h : n = a <;> simp [List.find?_cons, h]

theorem dependenciesOf_addTask (tc : TaskCollection) (n a : String) :
    dependenciesOf ⟨tc.tasks ++ [⟨n, [], [], .Ready, none⟩]⟩ a = dependenciesOf tc a := by
  unfold dependenciesOf
  rw [findTask_addTask]
  cases h : findTask tc a with
  | some t => rfl
  | none => by_cases hn : n = a <;> simp [hn]

theorem dependentsOf_addTask (tc : TaskCollection) (n a : String) :
    dependentsOf ⟨tc.tasks ++ [⟨n, [], [], .Ready, none⟩]⟩ a = dependentsOf tc a := by
  unfold dependentsOf
  rw [findTask_addTask]
  cases h : findTask tc a with
  | some t => rfl
  | none => by_cases hn : n = a <;> simp [hn]

theorem inv_addTask {tc : TaskCollection} {n : String} (hInv : RegInv tc)
    (hn : hasTask tc n = false) : RegInv ⟨tc.tasks ++ [⟨n, [], [], .Ready, none⟩]⟩ := by
  have hnm : n ∉ taskNames tc := fun hm =>
    by rw [hasTask_iff_mem.mpr hm] at hn; exact Bool.noConfusion hn
  have hmem : ∀ t : ITask, t ∈ (⟨tc.tasks ++ [⟨n, [], [], .Ready, none⟩]⟩ : TaskCollection).tasks ↔
      t ∈ tc.tasks ∨ t = ⟨n, [], [], .Ready, none⟩ := by
    intro t
    simp
  refine ⟨?_, ?_, ?_, ?_, ?_, ?_, ?_⟩
  · rw [taskNames_addTask]
    simpa [List.nodup_append] using ⟨hInv.nodupNames, hnm⟩
  · intro t ht d hd
    rw [taskNames_addTask]
    rcases (hmem t).mp ht with h | rfl
    · exact List.mem_append_left _ (hInv.depsReg t h d hd)
    · simp at hd
  · intro t ht d hd
    rw [taskNames_addTask]
    rcases (hmem t).mp ht with h | rfl
    · exact List.mem_append_left _ (hInv.depsdReg t h d hd)
    · simp at hd
  · intro t ht
    rcases (hmem t).mp ht with h | rfl
    · exact hInv.depsNodup t h
    · exact List.nodup_nil
  · intro t ht
    rcases (hmem t).mp ht with h | rfl
    · exact hInv.depsdNodup t h
    · exact List.nodup_nil
  · intro a b
    rw [dependenciesOf_addTask, dependentsOf_addTask]
    exact hInv.mutualInv a b
  · intro t ht
    rcases (hmem t).mp ht with h | rfl
    · exact hInv.cplNone t h
    · rfl

theorem mutualInv_addEdge {tc : TaskCollection} {n d : String}
    (hmi : ∀ a b : String, b ∈ dependenciesOf tc a ↔ a ∈ dependentsOf tc b)
    (hn : hasTask tc n = true) (hd : hasTask tc d = true) :
    ∀ a b : String,
      b ∈ dependenciesOf (addEdge tc n d) a ↔ a ∈ dependentsOf (addEdge tc n d) b := by
  obtain ⟨tn, htn⟩ := Option.isSome_iff_exists.mp hn
  obtain ⟨td, htd⟩ := Option.isSome_iff_exists.mp hd
  intro a b
  rw [dependenciesOf_addEdge, dependentsOf_addEdge, htn, htd]
  by_cases ha : a = n <;> by_cases hb : b = d
  · subst ha; subst hb
    simp only [if_pos (Eq.refl _), if_true]
    constructor
    · intro _
      exact mem_setAdd_self
    · intro _
      exact mem_setAdd_self
  · subst ha
    simp only [if_pos (Eq.refl _), if_true, if_neg hb]
    rw [mem_setAdd, ← dependenciesOf_eq_of_findTask htn]
    constructor
    · rintro (h | rfl)
      · exact (hmi a b).mp h
      · exact absurd (Eq.refl _) hb
    · intro h
      exact Or.inl ((hmi a b).mpr h)
  · subst hb
    simp only [if_neg ha, if_pos (Eq.refl _), if_true]
    rw [mem_setAdd, ← dependentsOf_eq_of_findTask htd]
    constructor
    · intro h
      exact Or.inl ((hmi a b).mp h)
    · rintro (h | rfl)
      · exact (hmi a b).mpr h
      · exact absurd (Eq.refl _) ha
  · simp only [if_neg ha, if_neg hb]
    exact hmi a b

theorem inv_addEdge {tc : TaskCollection} {n d : String} (hInv : RegInv tc)
    (hn : hasTask tc n = true) (hd : hasTask tc d = true) : RegInv (addEdge tc n d) := by
  obtain ⟨tn, htn⟩ := Option.isSome_iff_exists.mp hn
  obtain ⟨td, htd⟩ := Option.isSome_iff_exists.mp hd
  have hdm : d ∈ taskNames tc := hasTask_iff_mem.mp hd
  have hnm : n ∈ taskNames tc := hasTask_iff_mem.mp hn
  have hmem : ∀ t' : ITask, t' ∈ (addEdge tc n d).tasks →
      ∃ t ∈ tc.tasks, t' = edgeApply n d t := by
    intro t' ht'
    rw [addEdge_tasks] at ht'
    obtain ⟨t, htm, rfl⟩ := List.mem_map.mp ht'
    exact ⟨t, htm, Eq.refl _⟩
  refine ⟨?_, ?_, ?_, ?_, ?_, ?_, ?_⟩
  · rw [taskNames_addEdge]
    exact hInv.nodupNames
  · intro t' ht' x hx
    obtain ⟨t, htm, rfl⟩ := hmem t' ht'
    rw [taskNames_addEdge]
    rw [edgeApply_dependencies] at hx
    by_cases hname : t.name = n
    · rw [if_pos hname] at hx
      rcases mem_setAdd.mp hx with h | rfl
      · exact hInv.depsReg t htm x h
      · exact hdm
    · rw [if_neg hname] at hx
      exact hInv.depsReg t htm x hx
  · intro t' ht' x hx
    obtain ⟨t, htm, rfl⟩ := hmem t' ht'
    rw [taskNames_addEdge]
    rw [edgeApply_dependents] at hx
    by_cases hname : t.name = d
    · rw [if_pos hname] at hx
      rcases mem_setAdd.mp hx with h | rfl
      · exact hInv.depsdReg t htm x h
      · exact hnm
    · rw [if_neg hname] at hx
      exact hInv.depsdReg t htm x hx
  · intro t' ht'
    obtain ⟨t, htm, rfl⟩ := hmem t' ht'
    rw [edgeApply_dependencies]
    split
    · exact setAdd_nodup (hInv.depsNodup t htm)
    · exact hInv.depsNodup t htm
  · intro t' ht'
    obtain ⟨t, htm, rfl⟩ := hmem t' ht'
    rw [edgeApply_dependents]
    split
    · exact setAdd_nodup (hInv.depsdNodup t htm)
    · exact hInv.depsdNodup t htm
  · exact mutualInv_addEdge hInv.mutualInv hn hd
  · intro t' ht'
    obtain ⟨t, htm, rfl⟩ := hmem t' ht'
    rw [edgeApply_cpl]
    exact hInv.cplNone t htm

theorem addDepsLoop_inv {n : String} :
    ∀ {ds : List String} {tc tc' : TaskCollection} {e : Option TCError},
      RegInv tc → hasTask tc n = true → addDepsLoop n tc ds = (tc', e) → RegInv tc' := by
  intro ds
  induction ds with
  | nil =>
    intro tc tc' e hInv _ h
    unfold addDepsLoop at h
    simp only [Prod.mk.injEq] at h
    exact h.1 ▸ hInv
  | cons d rest ih =>
    intro tc tc' e hInv hn h
    unfold addDepsLoop at h
    split at h
    · rename_i hd
      exact ih (inv_addEdge hInv hn hd) (by rw [hasTask_addEdge]; exact hn) h
    · simp only [Prod.mk.injEq] at h
      exact h.1 ▸ hInv

theorem reachable_inv {tc : TaskCollection} (h : Reachable tc) : RegInv tc := by
  induction h with
  | empty =>
    refine ⟨?_, ?_, ?_, ?_, ?_, ?_, ?_⟩ <;> try (intro t ht; simp at ht)
    · simp [taskNames]
    · intro a b
      have hda : findTask (⟨[]⟩ : TaskCollection) a = none := Eq.refl _
      have hdb : findTask (⟨[]⟩ : TaskCollection) b = none := Eq.refl _
      rw [dependenciesOf_eq_nil_of_none hda, dependentsOf_eq_nil_of_none hdb]
      simp
  | addTask _ hstep ih =>
    obtain ⟨hfree, rfl⟩ := addTask_success hstep
    exact inv_addTask ih hfree
  | addDeps _ hstep ih =>
    rename_i tc₀ tc' n ds
    unfold addDependencies at hstep
    split at hstep
    · rename_i hn
      exact addDepsLoop_inv ih hn hstep
    · simp at hstep

/-! ### Failed calls and idempotence of edge insertion -/

theorem map_eq_self_of_mem {α : Type} {l : List α} {f : α → α} (h : ∀ x ∈ l, f x = x) :
    l.map f = l := by
  induction l with
  | nil => rfl
  | cons a l ih => rw [List.map_cons, h a (List.mem_cons_self a l),
      ih (fun x hx => h x (List.mem_cons_of_mem a hx))]

/-- Both directions of the `n → d` dependency edge are present on every record. -/
def EdgeIn (tc : TaskCollection) (n d : String) : Prop :=
  (∀ t ∈ tc.tasks, t.name = n → d ∈ t.dependencies) ∧
  (∀ t ∈ tc.tasks, t.name = d → n ∈ t.dependents)

theorem edgeApply_eq_self {n d : String} {t : ITask}
    (h1 : t.name = n → d ∈ t.dependencies) (h2 : t.name = d → n ∈ t.dependents) :
    edgeApply n d t = t := by
  obtain ⟨nm, deps, depd, st, cpl⟩ := t
  simp only at h1 h2
  by_cases e1 : nm = n <;> by_cases e2 : nm = d <;>
    simp_all [edgeApply, setAdd_eq_self]

theorem addEdge_of_edgeIn {tc : TaskCollection} {n d : String} (h : EdgeIn tc n d) :
    addEdge tc n d = tc := by
  have ht : (addEdge tc n d).tasks = tc.tasks := by
    rw [addEdge_tasks]
    exact map_eq_self_of_mem
      (fun t htm => edgeApply_eq_self (fun hn => h.1 t htm hn) (fun hd => h.2 t htm hd))
  calc addEdge tc n d = ⟨(addEdge tc n d).tasks⟩ := rfl
    _ = ⟨tc.tasks⟩ := by rw [ht]
    _ = tc := rfl

theorem edgeIn_addEdge (tc : TaskCollection) (n d : String) : EdgeIn (addEdge tc n d) n d := by
  constructor
  · intro t' ht' hname
    rw [addEdge_tasks] at ht'
    obtain ⟨t, _, rfl⟩ := List.mem_map.mp ht'
    rw [edgeApply_name] at hname
    rw [edgeApply_dependencies, if_pos hname]
    exact mem_setAdd_self
  · intro t' ht' hname
    rw [addEdge_tasks] at ht'
    obtain ⟨t, _, rfl⟩ := List.mem_map.mp ht'
    rw [edgeApply_name] at hname
    rw [edgeApply_dependents, if_pos hname]
    exact mem_setAdd_self

theorem edgeIn_mono_addEdge {tc : TaskCollection} {n d : String} (h : EdgeIn tc n d)
    (n' d' : String) : EdgeIn (addEdge tc n' d') n d := by
  constructor
  · intro t' ht' hname
    rw [addEdge_tasks] at ht'
    obtain ⟨t, htm, rfl⟩ := List.mem_map.mp ht'
    rw [edgeApply_name] at hname
    rw [edgeApply_dependencies]
    split
    · exact subset_setAdd (h.1 t htm hname)
    · exact h.1 t htm hname
  · intro t' ht' hname
    rw [addEdge_tasks] at ht'
    obtain ⟨t, htm, rfl⟩ := List.mem_map.mp ht'
    rw [edgeApply_name] at hname
    rw [edgeApply_dependents]
    split
    · exact subset_setAdd (h.2 t htm hname)
    · exact h.2 t htm hname

theorem edgeIn_foldl {n d n' : String} :
    ∀ {ds : List String} {tc : TaskCollection}, EdgeIn tc n d →
      EdgeIn (ds.foldl (fun acc x => addEdge acc n' x) tc) n d := by
  intro ds
  induction ds with
  | nil => exact fun h => h
  | cons x rest ih => exact fun h => ih (edgeIn_mono_addEdge h n' x)

theorem edgeIn_of_mem_foldl {n : String} :
    ∀ {ds : List String} {tc : TaskCollection} {d : String}, d ∈ ds →
      EdgeIn (ds.foldl (fun acc x => addEdge acc n x) tc) n d := by
  intro ds
  induction ds with
  | nil => intro tc d h; simp at h
  | cons x rest ih =>
    intro tc d h
    rcases List.mem_cons.mp h with rfl | h
    · rw [List.foldl_cons]
      exact edgeIn_foldl (edgeIn_addEdge tc n d)
    · rw [List.foldl_cons]
      exact ih h

theorem foldl_addEdge_idem {n : String} :
    ∀ {ds : List String} {tc : TaskCollection}, (∀ d ∈ ds, EdgeIn tc n d) →
      ds.foldl (fun acc x => addEdge acc n x) tc = tc := by
  intro ds
  induction ds with
  | nil => intro tc _; rfl
  | cons x rest ih =>
    intro tc h
    have hx : addEdge tc n x = tc := addEdge_of_edgeIn (h x (List.mem_cons_self x rest))
    calc (x :: rest).foldl (fun acc y => addEdge acc n y) tc
        = rest.foldl (fun acc y => addEdge acc n y) (addEdge tc n x) := rfl
      _ = rest.foldl (fun acc y => addEdge acc n y) tc := by rw [hx]
      _ = tc := ih (fun d hd => h d (List.mem_cons_of_mem x hd))

theorem hasTask_foldl_addEdge {n : String} :
    ∀ {ds : List String} {tc : TaskCollection} (a : String),
      hasTask (ds.foldl (fun acc x => addEdge acc n x) tc) a = hasTask tc a := by
  intro ds
  induction ds with
  | nil => exact fun _ => rfl
  | cons x rest ih =>
    intro tc a
    calc hasTask ((x :: rest).foldl (fun acc y => addEdge acc n y) tc) a
        = hasTask (rest.foldl (fun acc y => addEdge acc n y) (addEdge tc n x)) a := rfl
      _ = hasTask (addEdge tc n x) a := ih a
      _ = hasTask tc a := hasTask_addEdge tc n x a

theorem addDepsLoop_all_registered {n : String} :
    ∀ {ds : List String} {tc : TaskCollection}, (∀ d ∈ ds, hasTask tc d = true) →
      addDepsLoop n tc ds = (ds.foldl (fun acc x => addEdge acc n x) tc, none) := by
  intro ds
  induction ds with
  | nil => intro tc _; rfl
  | cons x rest ih =>
    intro tc h
    unfold addDepsLoop
    rw [if_pos (h x (List.mem_cons_self x rest))]
    exact ih (fun d hd => by rw [hasTask_addEdge]; exact h d (List.mem_cons_of_mem x hd))

theorem addDepsLoop_stops_at_unregistered {n x : String} :
    ∀ {pre : List String} {tc : TaskCollection} (post : List String),
      (∀ p ∈ pre, hasTask tc p = true) → hasTask tc x = false →
      addDepsLoop n tc (pre ++ x :: post) =
        (pre.foldl (fun acc d => addEdge acc n d) tc, some (.projectNotRegistered x)) := by
  intro pre
  induction pre with
  | nil =>
    intro tc post _ hx
    rw [List.nil_append]
    unfold addDepsLoop
    rw [if_neg (by rw [hx]; exact Bool.noConfusion)]
    rfl
  | cons p pre' ih =>
    intro tc post hpre hx
    rw [List.cons_append]
    unfold addDepsLoop
    rw [if_pos (hpre p (List.mem_cons_self p pre')), List.foldl_cons]
    exact ih post
      (fun q hq => by rw [hasTask_addEdge]; exact hpre q (List.mem_cons_of_mem p hq))
      (by rw [hasTask_addEdge]; exact hx)

/-! ### Small concrete states used by the witnesses -/

/-- Tasks `A` and `B` registered, no edges. -/
def tcAB : TaskCollection := (addTask (addTask ⟨[]⟩ "A").1 "B").1

theorem reachable_tcAB : Reachable tcAB :=
  @Reachable.addTask (addTask ⟨[]⟩ "A").1 tcAB "B"
    (@Reachable.addTask ⟨[]⟩ (addTask ⟨[]⟩ "A").1 "A" Reachable.empty (by decide)) (by decide)

/-- Tasks `A` and `B`, where `B` depends on `A`. -/
def tcW : TaskCollection := (addDependencies tcAB "B" ["A"]).1

theorem reachable_tcW : Reachable tcW :=
  @Reachable.addDeps tcAB tcW "B" ["A"] reachable_tcAB (by decide)

/-! ### Claims C5, C6, C7, C8 -/

/-- C8: registering a name that is already present fails with the
duplicate-registration error and leaves the registry (hence also the
registered task's dependency and dependent sets) unchanged. -/
theorem C8_duplicate_addTask_rejected (tc : TaskCollection) (n : String)
    (h : hasTask tc n = true) :
    addTask tc n = (tc, some TCError.duplicateTask) := by
  unfold addTask
  rw [if_pos h]

theorem C8_duplicate_addTask_rejected_witness :
    hasTask tcAB "A" = true ∧ addTask tcAB "A" = (tcAB, some TCError.duplicateTask) :=
  ⟨by decide, C8_duplicate_addTask_rejected tcAB "A" (by decide)⟩

/-- C5, counterexample: `addDependencies "A" ["B", "X"]` on a registry with
tasks `A`, `B` fails naming `X`, but the post-state is not the pre-state: the
two-sided edge for the registered prefix element `B` has been added. -/
theorem C5_counterexample :
    (addDependencies tcAB "A" ["B", "X"]).2 = some (TCError.projectNotRegistered "X") ∧
    "B" ∈ dependenciesOf (addDependencies tcAB "A" ["B", "X"]).1 "A" ∧
    "B" ∉ dependenciesOf tcAB "A" ∧
    (addDependencies tcAB "A" ["B", "X"]).1 ≠ tcAB := by decide

/-- C5, amended: when `addDependencies` hits the first unregistered dependency
name it fails naming that name, having added the two-sided edges for all
(registered) names preceding it and nothing for it or the names after it; in
particular the registry is unchanged only when the unregistered name comes
first. -/
theorem C5_first_unregistered_dependency (tc : TaskCollection) (n x : String)
    (pre post : List String) (hn : hasTask tc n = true)
    (hpre : ∀ p ∈ pre, hasTask tc p = true) (hx : hasTask tc x = false) :
    addDependencies tc n (pre ++ x :: post) =
      (pre.foldl (fun acc d => addEdge acc n d) tc, some (TCError.projectNotRegistered x)) := by
  unfold addDependencies
  rw [if_pos hn]
  exact addDepsLoop_stops_at_unregistered post hpre hx

theorem C5_first_unregistered_dependency_witness :
    (hasTask tcAB "A" = true ∧ (∀ p ∈ ["B"], hasTask tcAB p = true) ∧
      hasTask tcAB "X" = false) ∧
    addDependencies tcAB "A" (["B"] ++ "X" :: []) =
      (["B"].foldl (fun acc d => addEdge acc "A" d) tcAB,
        some (TCError.projectNotRegistered "X")) :=
  ⟨⟨by decide, by decide, by decide⟩,
    C5_first_unregistered_dependency tcAB "A" "X" ["B"] [] (by decide) (by decide) (by decide)⟩

/-- C7: for a registered task and registered dependency names, calling
`addDependencies` twice in succession leaves exactly the state of calling it
once (the edge sets are sets: re-adding an existing edge is a no-op). -/
theorem C7_addDependencies_idempotent (tc : TaskCollection) (n : String) (ds : List String)
    (hn : hasTask tc n = true) (hds : ∀ d ∈ ds, hasTask tc d = true) :
    ∃ tc1, addDependencies tc n ds = (tc1, none) ∧
      addDependencies tc1 n ds = (tc1, none) := by
  refine ⟨ds.foldl (fun acc x => addEdge acc n x) tc, ?_, ?_⟩
  · unfold addDependencies
    rw [if_pos hn]
    exact addDepsLoop_all_registered hds
  · unfold addDependencies
    rw [if_pos (by rw [hasTask_foldl_addEdge]; exact hn)]
    rw [addDepsLoop_all_registered
      (fun d hd => by rw [hasTask_foldl_addEdge]; exact hds d hd)]
    rw [foldl_addEdge_idem (fun d hd => edgeIn_of_mem_foldl hd)]

theorem C7_addDependencies_idempotent_witness :
    (hasTask tcAB "B" = true ∧ ∀ d ∈ ["A"], hasTask tcAB d = true) ∧
    ∃ tc1, addDependencies tcAB "B" ["A"] = (tc1, none) ∧
      addDependencies tc1 "B" ["A"] = (tc1, none) :=
  ⟨⟨by decide, by decide⟩, C7_addDependencies_idempotent tcAB "B" ["A"] (by decide) (by decide)⟩

/-! ### The cycle detector: monotonicity, fuel, soundness, completeness -/

theorem nodup_subset_length_le {c l : List String} (h : c.Nodup) (hs : ∀ x ∈ c, x ∈ l) :
    c.length ≤ l.length := by
  classical
  calc c.length = c.toFinset.card := (List.toFinset_card_of_nodup h).symm
    _ ≤ l.toFinset.card := Finset.card_le_card (fun x hx => by
        simp only [List.mem_toFinset] at hx ⊢
        exact hs x hx)
    _ ≤ l.length := l.toFinset_card_le

theorem dependents_length_le {tc : TaskCollection}
    (hreg : ∀ t ∈ tc.tasks, ∀ d ∈ t.dependents, d ∈ taskNames tc)
    (hdnd : ∀ t ∈ tc.tasks, t.dependents.Nodup) (a : String) :
    (dependentsOf tc a).length ≤ tc.tasks.length := by
  cases hf : findTask tc a with
  | none => rw [dependentsOf_eq_nil_of_none hf]; exact Nat.zero_le _
  | some t =>
    rw [dependentsOf_eq_of_findTask hf]
    have hm := mem_of_findTask hf
    calc t.dependents.length ≤ (taskNames tc).length :=
          nodup_subset_length_le (hdnd t hm) (hreg t hm)
      _ = tc.tasks.length := List.length_map _ _

/-- Number of registered names not yet in the checked set. -/
def uncheckedCount (tc : TaskCollection) (checked : List String) : Nat :=
  ((taskNames tc).filter (fun x => decide (x ∉ checked))).length

theorem uncheckedCount_nil (tc : TaskCollection) :
    uncheckedCount tc [] = tc.tasks.length := by
  unfold uncheckedCount
  rw [List.filter_eq_self.mpr (fun x _ => by simp)]
  exact List.length_map _ _

theorem filter_ne_length {L : List String} {t : String} (hnd : L.Nodup) (ht : t ∈ L) :
    (L.filter (fun x => decide (x ≠ t))).length + 1 = L.length := by
  induction L with
  | nil => simp at ht
  | cons a L ih =>
    by_cases hat : t = a
    · subst hat
      have htL : t ∉ L := (List.nodup_cons.mp hnd).1
      rw [List.filter_cons_of_neg (by simp)]
      rw [List.filter_eq_self.mpr (fun x hx => by
        simp only [decide_eq_true_eq]
        rintro rfl
        exact htL hx)]
      simp
    · have hmem : t ∈ L := by
        rcases List.mem_cons.mp ht with h | h
        · exact absurd h hat
        · exact h
      rw [List.filter_cons_of_pos (by simpa using fun h => hat h.symm)]
      have := ih (List.nodup_cons.mp hnd).2 hmem
      simp only [List.length_cons]
      omega

theorem uncheckedCount_cons {tc : TaskCollection} {checked : List String} {t : String}
    (hnd : (taskNames tc).Nodup) (ht : t ∈ taskNames tc) (htc : t ∉ checked) :
    uncheckedCount tc (t :: checked) + 1 = uncheckedCount tc checked := by
  unfold uncheckedCount
  have h1 : (taskNames tc).filter (fun x => decide (x ∉ t :: checked)) =
      ((taskNames tc).filter (fun x => decide (x ∉ checked))).filter
        (fun x => decide (x ≠ t)) := by
    rw [List.filter_filter]
    apply List.filter_congr
    intro x _
    by_cases h1 : x = t <;> by_cases h2 : x ∈ checked <;> simp [h1, h2]
  rw [h1]
  exact filter_ne_length (hnd.filter _) (List.mem_filter.mpr ⟨ht, by simpa using htc⟩)

theorem uncheckedCount_le_of_subset {tc : TaskCollection} {c1 c2 : List String}
    (h : c1 ⊆ c2) : uncheckedCount tc c2 ≤ uncheckedCount tc c1 := by
  unfold uncheckedCount
  exact (List.monotone_filter_right _ (fun x hx => by
    simp only [decide_eq_true_eq] at hx ⊢
    exact fun hm => hx (h hm))).length_le

theorem check_mono (tc : TaskCollection) :
    ∀ (fuel : Nat) (tasks chain checked checked' : List String),
      checkCyclicF tc fuel tasks chain checked = .ok checked' → checked ⊆ checked' := by
  intro fuel
  induction fuel with
  | zero =>
    intro tasks chain checked checked' h
    exact absurd h (by simp [checkCyclicF])
  | succ f ih =>
    intro tasks chain checked checked' h
    cases tasks with
    | nil =>
      unfold checkCyclicF at h
      simp only [CycleCheckResult.ok.injEq] at h
      exact h ▸ fun x hx => hx
    | cons t rest =>
      unfold checkCyclicF at h
      split at h
      · simp at h
      · split at h
        · exact ih _ _ _ _ h
        · cases hnest : checkCyclicF tc f (dependentsOf tc t) (chain ++ [t]) (t :: checked) with
          | cycle e => rw [hnest] at h; simp at h
          | fuelOut => rw [hnest] at h; simp at h
          | ok checked1 =>
            rw [hnest] at h
            have h1 : (t :: checked) ⊆ checked1 := ih _ _ _ _ hnest
            have h2 : checked1 ⊆ checked' := ih _ _ _ _ h
            exact fun x hx => h2 (h1 (List.mem_cons_of_mem t hx))

theorem check_fuel (tc : TaskCollection) (hnd : (taskNames tc).Nodup)
    (hreg : ∀ t ∈ tc.tasks, ∀ d ∈ t.dependents, d ∈ taskNames tc)
    (hdnd : ∀ t ∈ tc.tasks, t.dependents.Nodup) :
    ∀ (fuel : Nat) (tasks chain checked : List String),
      (∀ t ∈ tasks, t ∈ taskNames tc) →
      uncheckedCount tc checked * (tc.tasks.length + 1) + tasks.length + 1 ≤ fuel →
      checkCyclicF tc fuel tasks chain checked ≠ .fuelOut := by
  intro fuel
  induction fuel with
  | zero =>
    intro tasks chain checked _ hacc
    omega
  | succ f ih =>
    intro tasks chain checked htreg hacc
    cases tasks with
    | nil =>
      unfold checkCyclicF
      simp
    | cons t rest =>
      unfold checkCyclicF
      split
      · simp
      · split
        · exact ih rest chain checked (fun x hx => htreg x (List.mem_cons_of_mem t hx))
            (by simp only [List.length_cons] at hacc; omega)
        · rename_i hchain hcheck
          have htn : t ∈ taskNames tc := htreg t (List.mem_cons_self t rest)
          have hcount := uncheckedCount_cons hnd htn hcheck
          have hdeplen := dependents_length_le hreg hdnd t
          have hmul : uncheckedCount tc checked * (tc.tasks.length + 1) =
              uncheckedCount tc (t :: checked) * (tc.tasks.length + 1) +
                (tc.tasks.length + 1) := by
            rw [← hcount, Nat.succ_mul]
          have hnest_ne : checkCyclicF tc f (dependentsOf tc t) (chain ++ [t])
              (t :: checked) ≠ .fuelOut := by
            apply ih _ _ _ (fun x hx => by
              cases hf : findTask tc t with
              | none => rw [dependentsOf_eq_nil_of_none hf] at hx; simp at hx
              | some task =>
                rw [dependentsOf_eq_of_findTask hf] at hx
                exact hreg task (mem_of_findTask hf) x hx)
            simp only [List.length_cons] at hacc
            omega
          cases hnest : checkCyclicF tc f (dependentsOf tc t) (chain ++ [t]) (t :: checked) with
          | cycle e => simp
          | fuelOut => exact absurd hnest hnest_ne
          | ok checked1 =>
            have hsub : (t :: checked) ⊆ checked1 := check_mono tc f _ _ _ _ hnest
            have hle : uncheckedCount tc checked1 ≤ uncheckedCount tc (t :: checked) :=
              uncheckedCount_le_of_subset hsub
            apply ih rest chain checked1 (fun x hx => htreg x (List.mem_cons_of_mem t hx))
            have : uncheckedCount tc checked1 * (tc.tasks.length + 1) ≤
                uncheckedCount tc (t :: checked) * (tc.tasks.length + 1) :=
              Nat.mul_le_mul_right _ hle
            simp only [List.length_cons] at hacc
            omega

theorem black_closed_path {tc : TaskCollection} {checked chain : List String}
    (hBC : ∀ v ∈ checked, v ∉ chain → ∀ w, edgeTo tc v w → w ∈ checked ∧ w ∉ chain)
    {v u : String} (hp : DepPath tc v u) (hv : v ∈ checked) (hvc : v ∉ chain) :
    u ∈ checked ∧ u ∉ chain := by
  induction hp with
  | single he => exact hBC _ hv hvc _ he
  | cons he _ ih =>
    obtain ⟨h1, h2⟩ := hBC _ hv hvc _ he
    exact ih h1 h2

theorem check_ok_inv (tc : TaskCollection) :
    ∀ (fuel : Nat) (tasks chain checked checked' : List String),
      checkCyclicF tc fuel tasks chain checked = .ok checked' →
      (∀ v ∈ checked, v ∉ chain → ∀ w, edgeTo tc v w → w ∈ checked ∧ w ∉ chain) →
      (∀ v ∈ checked, v ∉ chain → ¬ DepPath tc v v) →
      checked ⊆ checked' ∧
      (∀ v ∈ checked', v ∉ chain → ∀ w, edgeTo tc v w → w ∈ checked' ∧ w ∉ chain) ∧
      (∀ v ∈ checked', v ∉ chain → ¬ DepPath tc v v) ∧
      (∀ t ∈ tasks, t ∈ checked' ∧ t ∉ chain) := by
  intro fuel
  induction fuel with
  | zero =>
    intro tasks chain checked checked' h
    exact absurd h (by simp [checkCyclicF])
  | succ f ih =>
    intro tasks chain checked checked' h hBC hBA
    cases tasks with
    | nil =>
      unfold checkCyclicF at h
      simp only [CycleCheckResult.ok.injEq] at h
      subst h
      exact ⟨fun x hx => hx, hBC, hBA, fun t ht => absurd ht (List.not_mem_nil t)⟩
    | cons t rest =>
      unfold checkCyclicF at h
      split at h
      · simp at h
      · rename_i hchain
        split at h
        · rename_i hcheck
          obtain ⟨hsub, hBC', hBA', hrest⟩ := ih _ _ _ _ h hBC hBA
          refine ⟨hsub, hBC', hBA', ?_⟩
          intro x hx
          rcases List.mem_cons.mp hx with rfl | hx
          · exact ⟨hsub hcheck, hchain⟩
          · exact hrest x hx
        · rename_i hcheck
          cases hnest : checkCyclicF tc f (dependentsOf tc t) (chain ++ [t]) (t :: checked) with
          | cycle e => rw [hnest] at h; simp at h
          | fuelOut => rw [hnest] at h; simp at h
          | ok checked1 =>
            rw [hnest] at h
            have hBCpre : ∀ v ∈ t :: checked, v ∉ chain ++ [t] →
                ∀ w, edgeTo tc v w → w ∈ t :: checked ∧ w ∉ chain ++ [t] := by
              intro v hv hvc w hw
              rcases List.mem_cons.mp hv with rfl | hv
              · exact absurd (List.mem_append_right chain (List.mem_singleton_self v)) hvc
              · have hvc' : v ∉ chain := fun hc => hvc (List.mem_append_left _ hc)
                obtain ⟨h1, h2⟩ := hBC v hv hvc' w hw
                refine ⟨List.mem_cons_of_mem t h1, ?_⟩
                intro hwc
                rcases List.mem_append.mp hwc with hwc | hwc
                · exact h2 hwc
                · rw [List.mem_singleton.mp hwc] at h1
                  exact hcheck h1
            have hBApre : ∀ v ∈ t :: checked, v ∉ chain ++ [t] → ¬ DepPath tc v v := by
              intro v hv hvc
              rcases List.mem_cons.mp hv with rfl | hv
              · exact absurd (List.mem_append_right chain (List.mem_singleton_self v)) hvc
              · exact hBA v hv (fun hc => hvc (List.mem_append_left _ hc))
            obtain ⟨hsub1, hBC1, hBA1, hdeps1⟩ := ih _ _ _ _ hnest hBCpre hBApre
            have htck1 : t ∈ checked1 := hsub1 (List.mem_cons_self t checked)
            have hBC2 : ∀ v ∈ checked1, v ∉ chain →
                ∀ w, edgeTo tc v w → w ∈ checked1 ∧ w ∉ chain := by
              intro v hv hvc w hw
              by_cases hvt : v = t
              · subst hvt
                obtain ⟨h1, h2⟩ := hdeps1 w hw
                exact ⟨h1, fun hc => h2 (List.mem_append_left _ hc)⟩
              · have hvc' : v ∉ chain ++ [t] := by
                  intro hc
                  rcases List.mem_append.mp hc with hc | hc
                  · exact hvc hc
                  · exact hvt (List.mem_singleton.mp hc)
                obtain ⟨h1, h2⟩ := hBC1 v hv hvc' w hw
                exact ⟨h1, fun hc => h2 (List.mem_append_left _ hc)⟩
            have hBA2 : ∀ v ∈ checked1, v ∉ chain → ¬ DepPath tc v v := by
              intro v hv hvc
              by_cases hvt : v = t
              · subst hvt
                intro hp
                cases hp with
                | single he =>
                  exact (hdeps1 v he).2 (List.mem_append_right chain (List.mem_singleton_self v))
                | cons he hp' =>
                  rename_i b
                  obtain ⟨hb1, hb2⟩ := hdeps1 b he
                  have := black_closed_path hBC1 hp' hb1 hb2
                  exact this.2 (List.mem_append_right chain (List.mem_singleton_self v))
              · exact hBA1 v hv (fun hc => by
                  rcases List.mem_append.mp hc with hc | hc
                  · exact hvc hc
                  · exact hvt (List.mem_singleton.mp hc))
            obtain ⟨hsub2, hBC', hBA', hrest⟩ := ih _ _ _ _ h hBC2 hBA2
            refine ⟨?_, hBC', hBA', ?_⟩
            · exact fun x hx => hsub2 (hsub1 (List.mem_cons_of_mem t hx))
            · intro x hx
              rcases List.mem_cons.mp hx with rfl | hx
              · exact ⟨hsub2 htck1, hchain⟩
              · exact hrest x hx

theorem check_cycle_sound (tc : TaskCollection) :
    ∀ (fuel : Nat) (tasks chain checked : List String) (e : List String),
      checkCyclicF tc fuel tasks chain checked = .cycle e →
      List.Chain' (edgeTo tc) chain →
      (∀ t ∈ tasks, ∀ c ∈ chain.getLast?, edgeTo tc c t) →
      ∃ p t, e = (p ++ [t]).reverse ∧ List.Chain' (edgeTo tc) (p ++ [t]) ∧ t ∈ p := by
  intro fuel
  induction fuel with
  | zero =>
    intro tasks chain checked e h
    exact absurd h (by simp [checkCyclicF])
  | succ f ih =>
    intro tasks chain checked e h hchain hlast
    cases tasks with
    | nil =>
      unfold checkCyclicF at h
      simp at h
    | cons t rest =>
      unfold checkCyclicF at h
      split at h
      · rename_i hmem
        simp only [CycleCheckResult.cycle.injEq] at h
        refine ⟨chain, t, h.symm, ?_, hmem⟩
        rw [List.chain'_append]
        refine ⟨hchain, List.chain'_singleton t, ?_⟩
        intro x hx y hy
        simp only [List.head?_cons, Option.mem_def, Option.some.injEq] at hy
        subst hy
        exact hlast t (List.mem_cons_self t rest) x hx
      · split at h
        · exact ih rest chain checked e h hchain
            (fun x hx => hlast x (List.mem_cons_of_mem t hx))
        · have hchain' : List.Chain' (edgeTo tc) (chain ++ [t]) := by
            rw [List.chain'_append]
            refine ⟨hchain, List.chain'_singleton t, ?_⟩
            intro x hx y hy
            simp only [List.head?_cons, Option.mem_def, Option.some.injEq] at hy
            subst hy
            exact hlast t (List.mem_cons_self t rest) x hx
          have hlast' : ∀ d ∈ dependentsOf tc t, ∀ c ∈ (chain ++ [t]).getLast?,
              edgeTo tc c d := by
            intro d hd c hc
            rw [List.getLast?_concat] at hc
            rw [Option.mem_def, Option.some.injEq] at hc
            subst hc
            exact hd
          cases hnest : checkCyclicF tc f (dependentsOf tc t) (chain ++ [t]) (t :: checked) with
          | cycle e0 =>
            rw [hnest] at h
            simp only [CycleCheckResult.cycle.injEq] at h
            subst h
            exact ih _ _ _ _ hnest hchain' hlast'
          | fuelOut => rw [hnest] at h; simp at h
          | ok checked1 =>
            rw [hnest] at h
            exact ih rest chain checked1 e h hchain
              (fun x hx => hlast x (List.mem_cons_of_mem t hx))

theorem taskNames_length (tc : TaskCollection) :
    (taskNames tc).length = tc.tasks.length :=
  List.length_map _ _

theorem check_top_no_fuelOut {tc : TaskCollection} (hInv : RegInv tc) :
    checkCyclicF tc (tcFuel tc) (taskNames tc) [] [] ≠ .fuelOut := by
  apply check_fuel tc hInv.nodupNames hInv.depsdReg hInv.depsdNodup
  · exact fun t ht => ht
  · rw [uncheckedCount_nil, taskNames_length]
    unfold tcFuel
    have : (tc.tasks.length + 1) * (tc.tasks.length + 1) =
        tc.tasks.length * (tc.tasks.length + 1) + (tc.tasks.length + 1) := by
      rw [Nat.succ_mul]
    omega

theorem acyclic_of_check_ok {tc : TaskCollection} {fuel : Nat} {checked' : List String}
    (h : checkCyclicF tc fuel (taskNames tc) [] [] = .ok checked') : Acyclic tc := by
  obtain ⟨_, _, hBA, htasks⟩ := check_ok_inv tc fuel _ _ _ _ h
    (fun v hv => absurd hv (List.not_mem_nil v))
    (fun v hv => absurd hv (List.not_mem_nil v))
  intro a hp
  have ha : a ∈ taskNames tc := by
    cases hp with
    | single he => exact edgeTo_registered he
    | cons he _ => exact edgeTo_registered he
  exact hBA a (htasks a ha).1 (List.not_mem_nil a) hp

theorem cycle_sound_top {tc : TaskCollection} {fuel : Nat} {e : List String}
    (h : checkCyclicF tc fuel (taskNames tc) [] [] = .cycle e) :
    ∃ p t, e = (p ++ [t]).reverse ∧ List.Chain' (edgeTo tc) (p ++ [t]) ∧ t ∈ p ∧
      DepPath tc t t := by
  obtain ⟨p, t, he, hc, hm⟩ := check_cycle_sound tc fuel _ _ _ e h List.chain'_nil
    (fun x _ c hc => by simp at hc)
  exact ⟨p, t, he, hc, hm, depPath_self_of_chain_mem hm hc⟩

theorem check_ok_of_acyclic {tc : TaskCollection} (hInv : RegInv tc) (hac : Acyclic tc) :
    ∃ checked', checkCyclicF tc (tcFuel tc) (taskNames tc) [] [] = .ok checked' := by
  cases h : checkCyclicF tc (tcFuel tc) (taskNames tc) [] [] with
  | cycle e =>
    obtain ⟨p, t, _, _, _, hp⟩ := cycle_sound_top h
    exact absurd hp (hac t)
  | fuelOut => exact absurd h (check_top_no_fuelOut hInv)
  | ok checked' => exact ⟨checked', Eq.refl _⟩

theorem check_cycle_of_not_acyclic {tc : TaskCollection} (hInv : RegInv tc)
    (hnac : ¬ Acyclic tc) :
    ∃ e, checkCyclicF tc (tcFuel tc) (taskNames tc) [] [] = .cycle e := by
  cases h : checkCyclicF tc (tcFuel tc) (taskNames tc) [] [] with
  | cycle e => exact ⟨e, Eq.refl _⟩
  | fuelOut => exact absurd h (check_top_no_fuelOut hInv)
  | ok checked' => exact absurd (acyclic_of_check_ok h) hnac

/-! ### The critical-path calculator -/

/-- Every memoized critical path length satisfies the defining equations of
`_calculateCriticalPaths` with respect to the current memo table. -/
def Consistent (tc : TaskCollection) : Prop :=
  ∀ t ∈ tc.tasks, ∀ v, t.criticalPathLength = some v →
    (t.dependents = [] → v = 0) ∧
    (t.dependents ≠ [] →
      (∀ d ∈ t.dependents, (cplOf tc d).isSome = true) ∧
      v = ((t.dependents.map (fun d => (cplOf tc d).getD 0)).foldl Nat.max 0) + 1)

theorem consistent_of_cplNone {tc : TaskCollection}
    (h : ∀ t ∈ tc.tasks, t.criticalPathLength = none) : Consistent tc := by
  intro t ht v hv
  rw [h t ht] at hv
  exact Option.noConfusion hv

theorem find?_name_eq_of_mem_nodup {l : List ITask} {t : ITask}
    (hnd : (l.map (·.name)).Nodup) (htm : t ∈ l) :
    l.find? (fun u => u.name = t.name) = some t := by
  induction l with
  | nil => simp at htm
  | cons u l ih =>
    rcases List.mem_cons.mp htm with rfl | htm
    · simp [List.find?_cons]
    · have hne : u.name ≠ t.name := by
        intro he
        rw [List.map_cons, List.nodup_cons] at hnd
        exact hnd.1 (he ▸ List.mem_map.mpr ⟨t, htm, Eq.refl _⟩)
      rw [List.find?_cons]
      have hd : decide (u.name = t.name) = false := by simpa using hne
      rw [hd]
      exact ih (by rw [List.map_cons, List.nodup_cons] at hnd; exact hnd.2) htm

theorem findTask_eq_of_mem_nodup {tc : TaskCollection} {t : ITask}
    (hnd : (taskNames tc).Nodup) (htm : t ∈ tc.tasks) : findTask tc t.name = some t :=
  find?_name_eq_of_mem_nodup hnd htm

theorem cplOf_none_of_findTask {tc : TaskCollection} {n : String} {t : ITask}
    (hf : findTask tc n = some t) (hv : t.criticalPathLength = none) :
    cplOf tc n = none := by
  unfold cplOf
  rw [hf]
  simpa using hv

theorem cplOf_setCPL_mono {tc : TaskCollection} {m : String} {v : Nat}
    (hm : cplOf tc m = none) {a : String} {w : Nat} (ha : cplOf tc a = some w) :
    cplOf (setCPL tc m v) a = some w := by
  rw [cplOf_setCPL]
  split
  · rename_i he
    rw [he] at ha
    rw [hm] at ha
    exact Option.noConfusion ha
  · exact ha

theorem cplOf_setCPL_self {tc : TaskCollection} {m : String} {t : ITask}
    (hf : findTask tc m = some t) (v : Nat) : cplOf (setCPL tc m v) m = some v := by
  rw [cplOf_setCPL, if_pos (Eq.refl _), hf]
  rfl

theorem frame_mem_strip {tc tc' : TaskCollection} (h : FrameEq tc tc') {t' : ITask}
    (ht' : t' ∈ tc'.tasks) : ∃ t ∈ tc.tasks, stripCPL t = stripCPL t' := by
  have : stripCPL t' ∈ tc'.tasks.map stripCPL := List.mem_map.mpr ⟨t', ht', Eq.refl _⟩
  rw [← h] at this
  obtain ⟨t, htm, ht⟩ := List.mem_map.mp this
  exact ⟨t, htm, ht⟩

theorem stripCPL_dependents (t : ITask) : (stripCPL t).dependents = t.dependents := Eq.refl _

theorem stripCPL_dependencies (t : ITask) : (stripCPL t).dependencies = t.dependencies :=
  Eq.refl _

theorem frame_depsdReg {tc tc' : TaskCollection} (h : FrameEq tc tc')
    (hreg : ∀ t ∈ tc.tasks, ∀ d ∈ t.dependents, d ∈ taskNames tc) :
    ∀ t ∈ tc'.tasks, ∀ d ∈ t.dependents, d ∈ taskNames tc' := by
  intro t' ht' d hd
  obtain ⟨t, htm, hst⟩ := frame_mem_strip h ht'
  rw [← h.taskNames_eq]
  apply hreg t htm d
  rw [← stripCPL_dependents t, hst, stripCPL_dependents]
  exact hd

theorem frame_depsdNodup {tc tc' : TaskCollection} (h : FrameEq tc tc')
    (hnd : ∀ t ∈ tc.tasks, t.dependents.Nodup) :
    ∀ t ∈ tc'.tasks, t.dependents.Nodup := by
  intro t' ht'
  obtain ⟨t, htm, hst⟩ := frame_mem_strip h ht'
  rw [← stripCPL_dependents t', ← hst, stripCPL_dependents]
  exact hnd t htm

theorem findTask_some_of_frame {tc tc' : TaskCollection} (h : FrameEq tc tc') {n : String}
    {t : ITask} (hf : findTask tc n = some t) :
    ∃ t', findTask tc' n = some t' ∧ stripCPL t' = stripCPL t := by
  have hs := h.findTask_strip n
  rw [hf] at hs
  cases hf' : findTask tc' n with
  | none => rw [hf'] at hs; simp at hs
  | some t' =>
    rw [hf'] at hs
    simp only [Option.map_some', Option.some.injEq] at hs
    exact ⟨t', Eq.refl _, hs.symm⟩

theorem chain'_congr_frame {tc tc' : TaskCollection} (h : FrameEq tc tc')
    {l : List String} (hc : List.Chain' (edgeTo tc) l) : List.Chain' (edgeTo tc') l :=
  List.Chain'.imp (fun a b hab => (h.edgeTo_iff a b).mp hab) hc

theorem forall2_cplOf_mem {tcX : TaskCollection} {ns : List String} {lens : List Nat}
    (h : List.Forall₂ (fun m v => cplOf tcX m = some v) ns lens) :
    ∀ d ∈ ns, ∃ w, cplOf tcX d = some w := by
  induction h with
  | nil => intro d hd; simp at hd
  | cons hh _ ih =>
    intro d hd
    rcases List.mem_cons.mp hd with rfl | hd
    · exact ⟨_, hh⟩
    · exact ih d hd

theorem forall2_map_getD {tcX : TaskCollection} {ns : List String} {lens : List Nat}
    (h : List.Forall₂ (fun m v => cplOf tcX m = some v) ns lens) :
    ns.map (fun d => (cplOf tcX d).getD 0) = lens := by
  induction h with
  | nil => rfl
  | cons hh _ ih =>
    rw [List.map_cons, ih, hh]
    rfl

theorem forall2_cplOf_congr {tcX tcY : TaskCollection} {ns : List String} {lens : List Nat}
    (hcong : ∀ d ∈ ns, cplOf tcY d = cplOf tcX d)
    (h : List.Forall₂ (fun m v => cplOf tcX m = some v) ns lens) :
    List.Forall₂ (fun m v => cplOf tcY m = some v) ns lens := by
  induction h with
  | nil => exact List.Forall₂.nil
  | cons hh ht ih =>
    rename_i a b ns' lens'
    exact List.Forall₂.cons
      (by rw [hcong a (List.mem_cons_self a ns')]; exact hh)
      (ih (fun d hd => hcong d (List.mem_cons_of_mem a hd)))

theorem consistent_setCPL {tc : TaskCollection} {m : String} {v : Nat} {task : ITask}
    (hnd : (taskNames tc).Nodup) (hf : findTask tc m = some task)
    (hnone : task.criticalPathLength = none) (hcons : Consistent tc)
    (heq : (task.dependents = [] → v = 0) ∧
      (task.dependents ≠ [] →
        (∀ d ∈ task.dependents, (cplOf (setCPL tc m v) d).isSome = true) ∧
        v = ((task.dependents.map
          (fun d => (cplOf (setCPL tc m v) d).getD 0)).foldl Nat.max 0) + 1)) :
    Consistent (setCPL tc m v) := by
  have hmnone : cplOf tc m = none := cplOf_none_of_findTask hf hnone
  intro t' ht' w hw
  rw [setCPL_tasks] at ht'
  obtain ⟨t, htm, rfl⟩ := List.mem_map.mp ht'
  by_cases hname : t.name = m
  · rw [if_pos hname] at hw ⊢
    simp only [Option.some.injEq] at hw
    subst hw
    have : t = task := by
      have := findTask_eq_of_mem_nodup hnd htm
      rw [hname, hf] at this
      exact (Option.some.injEq _ _).mp this.symm ▸ Eq.refl _
    subst this
    simpa using heq
  · rw [if_neg hname] at hw ⊢
    obtain ⟨h0, h1⟩ := hcons t htm w hw
    refine ⟨h0, ?_⟩
    intro hne
    obtain ⟨hsome, hval⟩ := h1 hne
    have hcong : ∀ d ∈ t.dependents, cplOf (setCPL tc m v) d = cplOf tc d := by
      intro d hd
      have hdm : d ≠ m := by
        intro he
        have := hsome d hd
        rw [he, hmnone] at this
        exact Bool.noConfusion this
      rw [cplOf_setCPL, if_neg hdm]
    constructor
    · intro d hd
      rw [hcong d hd]
      exact hsome d hd
    · rw [List.map_congr_left (fun d hd => by rw [hcong d hd])]
      exact hval

theorem calc_props (tc0 : TaskCollection) :
    ∀ (fuel : Nat) (tc : TaskCollection) (ns : List String) (tc' : TaskCollection)
      (lens : List Nat),
      calcCPs tc0 fuel tc ns = some (tc', lens) →
      FrameEq tc tc' ∧ (∀ a v, cplOf tc a = some v → cplOf tc' a = some v) := by
  intro fuel
  induction fuel with
  | zero =>
    intro tc ns tc' lens h
    exact absurd h (by simp [calcCPs])
  | succ f ih =>
    intro tc ns tc' lens h
    cases ns with
    | nil =>
      unfold calcCPs at h
      simp only [Option.some.injEq, Prod.mk.injEq] at h
      obtain ⟨rfl, -⟩ := h
      exact ⟨FrameEq.rfl tc, fun a v hv => hv⟩
    | cons n rest =>
      unfold calcCPs at h
      cases hf : findTask tc n with
      | none => rw [hf] at h; simp at h
      | some task =>
        rw [hf] at h
        dsimp only at h
        cases hm : task.criticalPathLength with
        | some v =>
          rw [hm] at h
          dsimp only at h
          cases hrec : calcCPs tc0 f tc rest with
          | none => rw [hrec] at h; simp at h
          | some p =>
            obtain ⟨tc2, vs⟩ := p
            rw [hrec] at h
            simp only [Option.some.injEq, Prod.mk.injEq] at h
            obtain ⟨rfl, -⟩ := h
            exact ih tc rest tc2 vs hrec
        | none =>
          rw [hm] at h
          dsimp only at h
          by_cases hemp : task.dependents.isEmpty = true
          · rw [if_pos hemp] at h
            cases hrec : calcCPs tc0 f (setCPL tc n 0) rest with
            | none => rw [hrec] at h; simp at h
            | some p =>
              obtain ⟨tc2, vs⟩ := p
              rw [hrec] at h
              simp only [Option.some.injEq, Prod.mk.injEq] at h
              obtain ⟨rfl, -⟩ := h
              obtain ⟨hfr, hmono⟩ := ih _ rest tc2 vs hrec
              refine ⟨(frameEq_setCPL tc n 0).trans hfr, ?_⟩
              intro a v hv
              exact hmono a v (cplOf_setCPL_mono (cplOf_none_of_findTask hf hm) hv)
          · rw [if_neg hemp] at h
            cases hrec1 : calcCPs tc0 f tc task.dependents with
            | none => rw [hrec1] at h; simp at h
            | some p1 =>
              obtain ⟨tc1, lens1⟩ := p1
              rw [hrec1] at h
              dsimp only at h
              cases hrec2 : calcCPs tc0 f
                  (setCPL tc1 n ((lens1.foldl Nat.max 0) + 1)) rest with
              | none => rw [hrec2] at h; simp at h
              | some p2 =>
                obtain ⟨tc2, vs⟩ := p2
                rw [hrec2] at h
                simp only [Option.some.injEq, Prod.mk.injEq] at h
                obtain ⟨rfl, -⟩ := h
                obtain ⟨hfr1, hmono1⟩ := ih tc task.dependents tc1 lens1 hrec1
                obtain ⟨hfr2, hmono2⟩ := ih _ rest tc2 vs hrec2
                refine ⟨(hfr1.trans (frameEq_setCPL tc1 n _)).trans hfr2, ?_⟩
                intro a v hv
                have hane : a ≠ n := by
                  intro he
                  rw [he, cplOf_none_of_findTask hf hm] at hv
                  exact Option.noConfusion hv
                have h2 : cplOf (setCPL tc1 n ((lens1.foldl Nat.max 0) + 1)) a = some v := by
                  rw [cplOf_setCPL, if_neg hane]
                  exact hmono1 a v hv
                exact hmono2 a v h2

theorem calc_main (tc0 : TaskCollection) :
    ∀ (fuel : Nat) (tc : TaskCollection) (ns stack : List String),
      (taskNames tc).Nodup →
      (∀ t ∈ tc.tasks, ∀ d ∈ t.dependents, d ∈ taskNames tc) →
      (∀ t ∈ tc.tasks, t.dependents.Nodup) →
      Acyclic tc →
      Consistent tc →
      (∀ m ∈ ns, m ∈ taskNames tc) →
      (∀ m ∈ ns, List.Chain' (edgeTo tc) (stack ++ [m])) →
      stack.Nodup →
      (∀ s ∈ stack, s ∈ taskNames tc) →
      (∀ s ∈ stack, cplOf tc s = none) →
      tc.tasks.length * (tc.tasks.length + 1) + ns.length + 1 ≤
        fuel + stack.length * (tc.tasks.length + 1) →
      ∃ tc' lens, calcCPs tc0 fuel tc ns = some (tc', lens) ∧
        FrameEq tc tc' ∧
        (∀ a v, cplOf tc a = some v → cplOf tc' a = some v) ∧
        (∀ s ∈ stack, cplOf tc' s = none) ∧
        Consistent tc' ∧
        List.Forall₂ (fun m v => cplOf tc' m = some v) ns lens := by
  intro fuel
  induction fuel with
  | zero =>
    intro tc ns stack hnd hreg hdnd hac hcons hns hchain hsnd hsreg hsnone hfuel
    exfalso
    have hslen : stack.length ≤ tc.tasks.length := by
      have := nodup_subset_length_le hsnd hsreg
      rwa [taskNames_length] at this
    have hmul : stack.length * (tc.tasks.length + 1) ≤
        tc.tasks.length * (tc.tasks.length + 1) :=
      Nat.mul_le_mul_right _ hslen
    omega
  | succ f ih =>
    intro tc ns stack hnd hreg hdnd hac hcons hns hchain hsnd hsreg hsnone hfuel
    cases ns with
    | nil =>
      exact ⟨tc, [], Eq.refl _, FrameEq.rfl tc, fun a v hv => hv, hsnone, hcons,
        List.Forall₂.nil⟩
    | cons m rest =>
      have hmn : m ∈ taskNames tc := hns m (List.mem_cons_self m rest)
      obtain ⟨task, hf⟩ : ∃ task, findTask tc m = some task :=
        Option.isSome_iff_exists.mp (hasTask_iff_mem.mpr hmn)
      have hmstack : m ∉ stack :=
        not_mem_stack_of_chain hac (hchain m (List.mem_cons_self m rest))
      have htm := mem_of_findTask hf
      cases hm : task.criticalPathLength with
      | some v =>
        obtain ⟨tc', vs, hrec, hfr, hmono, hsnone', hcons', hfa⟩ :=
          ih tc rest stack hnd hreg hdnd hac hcons
            (fun x hx => hns x (List.mem_cons_of_mem m hx))
            (fun x hx => hchain x (List.mem_cons_of_mem m hx))
            hsnd hsreg hsnone (by simp only [List.length_cons] at hfuel; omega)
        refine ⟨tc', v :: vs, ?_, hfr, hmono, hsnone', hcons',
          List.Forall₂.cons (hmono m v (cplOf_eq_some_of_findTask hf hm)) hfa⟩
        unfold calcCPs
        rw [hf]
        dsimp only
        rw [hm]
        dsimp only
        rw [hrec]
      | none =>
        have hm0 : cplOf tc m = none := cplOf_none_of_findTask hf hm
        by_cases hemp : task.dependents.isEmpty = true
        · -- the task is a sink: its critical path length is set to 0
          have hdeq : task.dependents = [] := by
            cases hde : task.dependents with
            | nil => rfl
            | cons a l => rw [hde] at hemp; simp at hemp
          have hfr01 : FrameEq tc (setCPL tc m 0) := frameEq_setCPL tc m 0
          have hlen1 : (setCPL tc m 0).tasks.length = tc.tasks.length :=
            hfr01.length_eq.symm
          obtain ⟨tc', vs, hrec, hfr, hmono, hsnone', hcons', hfa⟩ :=
            ih (setCPL tc m 0) rest stack
              (by rw [taskNames_setCPL]; exact hnd)
              (frame_depsdReg hfr01 hreg)
              (frame_depsdNodup hfr01 hdnd)
              (hfr01.acyclic_iff.mp hac)
              (consistent_setCPL hnd hf hm hcons
                ⟨fun _ => Eq.refl 0, fun hne => absurd hdeq hne⟩)
              (fun x hx => by
                rw [taskNames_setCPL]
                exact hns x (List.mem_cons_of_mem m hx))
              (fun x hx => chain'_congr_frame hfr01 (hchain x (List.mem_cons_of_mem m hx)))
              hsnd
              (fun s hs => by rw [taskNames_setCPL]; exact hsreg s hs)
              (fun s hs => by
                rw [cplOf_setCPL, if_neg (show ¬ s = m by
                  intro he
                  subst he
                  exact hmstack hs)]
                exact hsnone s hs)
              (by rw [hlen1]; simp only [List.length_cons] at hfuel; omega)
          refine ⟨tc', 0 :: vs, ?_, hfr01.trans hfr,
            (fun a v hv => hmono a v (cplOf_setCPL_mono hm0 hv)), hsnone', hcons',
            List.Forall₂.cons (hmono m 0 (cplOf_setCPL_self hf 0)) hfa⟩
          unfold calcCPs
          rw [hf]
          dsimp only
          rw [hm]
          dsimp only
          rw [if_pos hemp, hrec]
        · -- interior task: recurse into the dependents first
          have hdne : task.dependents ≠ [] := by
            intro he
            rw [he] at hemp
            exact hemp (Eq.refl _)
          have hdreg : ∀ d ∈ task.dependents, d ∈ taskNames tc := hreg task htm
          have hdepslen : task.dependents.length ≤ tc.tasks.length := by
            have := nodup_subset_length_le (hdnd task htm) hdreg
            rwa [taskNames_length] at this
          have hchainm := hchain m (List.mem_cons_self m rest)
          have hedgem : ∀ d ∈ task.dependents, edgeTo tc m d := by
            intro d hd
            unfold edgeTo
            rw [dependentsOf_eq_of_findTask hf]
            exact hd
          have hsmul : (stack.length + 1) * (tc.tasks.length + 1) =
              stack.length * (tc.tasks.length + 1) + (tc.tasks.length + 1) :=
            Nat.succ_mul _ _
          obtain ⟨tc1, lens1, hrec1, hfr1, hmono1, hsnone1, hcons1, hfa1⟩ :=
            ih tc task.dependents (stack ++ [m]) hnd hreg hdnd hac hcons
              hdreg
              (fun d hd => chain'_snoc (hchainm) (hedgem d hd))
              (by
                rw [List.nodup_append]
                refine ⟨hsnd, List.nodup_singleton m, ?_⟩
                intro a ha hb
                rw [List.mem_singleton] at hb
                subst hb
                exact hmstack ha)
              (fun s hs => by
                rcases List.mem_append.mp hs with hs | hs
                · exact hsreg s hs
                · rw [List.mem_singleton] at hs
                  subst hs
                  exact hmn)
              (fun s hs => by
                rcases List.mem_append.mp hs with hs | hs
                · exact hsnone s hs
                · rw [List.mem_singleton] at hs
                  subst hs
                  exact hm0)
              (by
                rw [List.length_append, List.length_singleton]
                simp only [List.length_cons] at hfuel
                omega)
          have hm1 : cplOf tc1 m = none :=
            hsnone1 m (List.mem_append_right stack (List.mem_singleton_self m))
          obtain ⟨task1, hf1, hstrip1⟩ := findTask_some_of_frame hfr1 hf
          have hdep1 : task1.dependents = task.dependents := by
            rw [← stripCPL_dependents task1, hstrip1, stripCPL_dependents]
          have hm1' : task1.criticalPathLength = none := by
            have := hm1
            unfold cplOf at this
            rw [hf1] at this
            simpa using this
          have hdm : ∀ d ∈ task.dependents, d ≠ m := by
            intro d hd he
            subst he
            exact hac d (DepPath.single (hedgem d hd))
          have hcong2 : ∀ d ∈ task.dependents,
              cplOf (setCPL tc1 m ((lens1.foldl Nat.max 0) + 1)) d = cplOf tc1 d := by
            intro d hd
            rw [cplOf_setCPL, if_neg (hdm d hd)]
          have hnd1 : (taskNames tc1).Nodup := by
            rw [← hfr1.taskNames_eq]
            exact hnd
          have hcons2 : Consistent (setCPL tc1 m ((lens1.foldl Nat.max 0) + 1)) := by
            apply consistent_setCPL hnd1 hf1 hm1' hcons1
            constructor
            · intro he
              rw [hdep1] at he
              exact absurd he hdne
            · intro _
              rw [hdep1]
              constructor
              · intro d hd
                rw [hcong2 d hd]
                obtain ⟨w, hw⟩ := forall2_cplOf_mem hfa1 d hd
                rw [hw]
                rfl
              · rw [List.map_congr_left (fun d hd => by rw [hcong2 d hd])]
                rw [forall2_map_getD hfa1]
          have hfr12 : FrameEq tc1 (setCPL tc1 m ((lens1.foldl Nat.max 0) + 1)) :=
            frameEq_setCPL tc1 m _
          have hfr02 : FrameEq tc (setCPL tc1 m ((lens1.foldl Nat.max 0) + 1)) :=
            hfr1.trans hfr12
          have hlen2 : (setCPL tc1 m ((lens1.foldl Nat.max 0) + 1)).tasks.length =
              tc.tasks.length := hfr02.length_eq.symm
          obtain ⟨tc', vs, hrec2, hfr2, hmono2, hsnone2, hcons2', hfa2⟩ :=
            ih (setCPL tc1 m ((lens1.foldl Nat.max 0) + 1)) rest stack
              (by rw [← hfr02.taskNames_eq]; exact hnd)
              (frame_depsdReg hfr02 hreg)
              (frame_depsdNodup hfr02 hdnd)
              (hfr02.acyclic_iff.mp hac)
              hcons2
              (fun x hx => by
                rw [← hfr02.taskNames_eq]
                exact hns x (List.mem_cons_of_mem m hx))
              (fun x hx => chain'_congr_frame hfr02 (hchain x (List.mem_cons_of_mem m hx)))
              hsnd
              (fun s hs => by rw [← hfr02.taskNames_eq]; exact hsreg s hs)
              (fun s hs => by
                rw [cplOf_setCPL, if_neg (show ¬ s = m by
                  intro he
                  subst he
                  exact hmstack hs)]
                exact hsnone1 s (List.mem_append_left _ hs))
              (by rw [hlen2]; simp only [List.length_cons] at hfuel; omega)
          refine ⟨tc', ((lens1.foldl Nat.max 0) + 1) :: vs, ?_, hfr02.trans hfr2, ?_,
            hsnone2, hcons2', ?_⟩
          · unfold calcCPs
            rw [hf]
            dsimp only
            rw [hm]
            dsimp only
            rw [if_neg hemp, hrec1]
            dsimp only
            rw [hrec2]
          · intro a v hv
            have hane : a ≠ m := by
              intro he
              rw [he, hm0] at hv
              exact Option.noConfusion hv
            apply hmono2
            rw [cplOf_setCPL, if_neg hane]
            exact hmono1 a v hv
          · exact List.Forall₂.cons
              (hmono2 m _ (cplOf_setCPL_self hf1 ((lens1.foldl Nat.max 0) + 1))) hfa2

/-! ### getOrderedTasks on acyclic reachable states -/

theorem getOrderedTasks_ok {tc : TaskCollection} (hInv : RegInv tc) (hac : Acyclic tc) :
    ∃ tc' lens, getOrderedTasks tc = some (.ok (sortByKey tc'.tasks, tc')) ∧
      FrameEq tc tc' ∧
      Consistent tc' ∧
      List.Forall₂ (fun m v => cplOf tc' m = some v) (taskNames tc) lens := by
  obtain ⟨checked', hok⟩ := check_ok_of_acyclic hInv hac
  obtain ⟨tc', lens, hcalc, hfr, _, _, hcons, hfa⟩ :=
    calc_main tc (tcFuel tc) tc (taskNames tc) [] hInv.nodupNames hInv.depsdReg
      hInv.depsdNodup hac (consistent_of_cplNone hInv.cplNone)
      (fun m hm => hm)
      (fun m _ => by simp)
      List.nodup_nil
      (fun s hs => absurd hs (List.not_mem_nil s))
      (fun s hs => absurd hs (List.not_mem_nil s))
      (by
        rw [taskNames_length]
        unfold tcFuel
        have h : (tc.tasks.length + 1) * (tc.tasks.length + 1) =
            tc.tasks.length * (tc.tasks.length + 1) + (tc.tasks.length + 1) :=
          Nat.succ_mul _ _
        simp only [List.length_nil]
        omega)
  refine ⟨tc', lens, ?_, hfr, hcons, hfa⟩
  unfold getOrderedTasks
  rw [hok, hcalc]

theorem memoized_all {tc tc' : TaskCollection} {lens : List Nat}
    (hfr : FrameEq tc tc') (hnd : (taskNames tc).Nodup)
    (hfa : List.Forall₂ (fun m v => cplOf tc' m = some v) (taskNames tc) lens) :
    ∀ t ∈ tc'.tasks, ∃ v, t.criticalPathLength = some v := by
  intro t ht
  have hnd' : (taskNames tc').Nodup := hfr.taskNames_eq ▸ hnd
  have hnm : t.name ∈ taskNames tc := by
    rw [hfr.taskNames_eq]
    exact List.mem_map.mpr ⟨t, ht, Eq.refl _⟩
  obtain ⟨v, hv⟩ := forall2_cplOf_mem hfa t.name hnm
  refine ⟨v, ?_⟩
  unfold cplOf at hv
  rw [findTask_eq_of_mem_nodup hnd' ht] at hv
  simpa using hv

theorem taskOrder_iff (a b : ITask) :
    taskOrder a b ↔ b.criticalPathLength.getD 0 ≤ a.criticalPathLength.getD 0 := by
  unfold taskOrder sortKey
  constructor
  · intro h
    exact_mod_cast neg_le_neg_iff.mp h
  · intro h
    exact neg_le_neg (by exact_mod_cast h)

instance : IsTotal ITask taskOrder :=
  ⟨fun a b => Int.le_total (sortKey a) (sortKey b)⟩

instance : IsTrans ITask taskOrder :=
  ⟨fun _ _ _ hab hbc => Int.le_trans hab hbc⟩

/-! ### Claims C1, C2, C4, C10 -/

/-- C1: on every acyclic graph built by successful `addTask`/`addDependencies`
calls, `getOrderedTasks()` returns (no cyclic-dependency error, no fuel
exhaustion of the model) a sequence that is a permutation of the registry's
values, whose names are exactly the registered names. -/
theorem C1_ordered_tasks_permutation (tc : TaskCollection)
    (hr : Reachable tc) (hac : Acyclic tc) :
    ∃ q tc', getOrderedTasks tc = some (.ok (q, tc')) ∧
      q.Perm tc'.tasks ∧ tc'.tasks.map (·.name) = tc.tasks.map (·.name) := by
  obtain ⟨tc', lens, hres, hfr, _, _⟩ := getOrderedTasks_ok (reachable_inv hr) hac
  exact ⟨sortByKey tc'.tasks, tc', hres, List.perm_insertionSort taskOrder tc'.tasks,
    hfr.taskNames_eq.symm⟩

theorem acyclic_of_rank {tc : TaskCollection} (rank : String → Nat)
    (h : ∀ a b, edgeTo tc a b → rank a < rank b) : Acyclic tc := by
  have key : ∀ a b, DepPath tc a b → rank a < rank b := by
    intro a b hp
    induction hp with
    | single he => exact h _ _ he
    | cons he _ ih => exact lt_trans (h _ _ he) ih
  exact fun a hp => lt_irrefl _ (key a a hp)

theorem acyclic_tcW : Acyclic tcW := by
  apply acyclic_of_rank (fun s => if s = "A" then 0 else 1)
  intro a b he
  have ha := edgeTo_registered he
  have hnames : taskNames tcW = ["A", "B"] := by decide
  rw [hnames] at ha
  have hab : a = "A" ∨ a = "B" := by simpa using ha
  rcases hab with rfl | rfl
  · have hd : dependentsOf tcW "A" = ["B"] := by decide
    unfold edgeTo at he
    rw [hd] at he
    have : b = "B" := by simpa using he
    subst this
    decide
  · have hd : dependentsOf tcW "B" = [] := by decide
    unfold edgeTo at he
    rw [hd] at he
    simp at he

theorem C1_ordered_tasks_permutation_witness :
    ∃ q tc', getOrderedTasks tcW = some (.ok (q, tc')) ∧
      q.Perm tc'.tasks ∧ tc'.tasks.map (·.name) = tcW.tasks.map (·.name) :=
  C1_ordered_tasks_permutation tcW reachable_tcW acyclic_tcW

/-- C2: after `getOrderedTasks()` succeeds on an acyclic graph, every task's
critical path length is defined; it is `0` when the task has no dependents and
`(max over the dependents' lengths) + 1` otherwise. -/
theorem C2_critical_path_equations (tc : TaskCollection)
    (hr : Reachable tc) (hac : Acyclic tc) :
    ∃ q tc', getOrderedTasks tc = some (.ok (q, tc')) ∧
      ∀ t ∈ tc'.tasks, ∃ v, t.criticalPathLength = some v ∧
        (t.dependents = [] → v = 0) ∧
        (t.dependents ≠ [] →
          (∀ d ∈ t.dependents, (cplOf tc' d).isSome = true) ∧
          v = ((t.dependents.map (fun d => (cplOf tc' d).getD 0)).foldl Nat.max 0) + 1) := by
  obtain ⟨tc', lens, hres, hfr, hcons, hfa⟩ := getOrderedTasks_ok (reachable_inv hr) hac
  refine ⟨sortByKey tc'.tasks, tc', hres, ?_⟩
  intro t ht
  obtain ⟨v, hv⟩ := memoized_all hfr (reachable_inv hr).nodupNames hfa t ht
  exact ⟨v, hv, hcons t ht v hv⟩

/-- C10: on an acyclic reachable graph, `getOrderedTasks()` changes only the
memoized `criticalPathLength` fields: erasing them, the registry before and
after the call is identical (names, dependency sets, dependent sets and
statuses are untouched). -/
theorem C10_frame_only_cpl (tc : TaskCollection)
    (hr : Reachable tc) (hac : Acyclic tc) :
    ∃ q tc', getOrderedTasks tc = some (.ok (q, tc')) ∧
      tc'.tasks.map stripCPL = tc.tasks.map stripCPL := by
  obtain ⟨tc', lens, hres, hfr, _, _⟩ := getOrderedTasks_ok (reachable_inv hr) hac
  exact ⟨sortByKey tc'.tasks, tc', hres, hfr.symm⟩

/-- C4: the returned sequence is sorted non-increasingly by critical path
length, and the sort is stable: any two tasks with equal key appear in the
output in their registry (registration) order; the model is a pure function,
so identical input states give identical outputs. -/
theorem C4_sorted_and_stable (tc : TaskCollection)
    (hr : Reachable tc) (hac : Acyclic tc) :
    ∃ q tc', getOrderedTasks tc = some (.ok (q, tc')) ∧
      q.Pairwise (fun a b => b.criticalPathLength.getD 0 ≤ a.criticalPathLength.getD 0) ∧
      (∀ a b : ITask, [a, b].Sublist tc'.tasks →
        a.criticalPathLength.getD 0 = b.criticalPathLength.getD 0 → [a, b].Sublist q) := by
  obtain ⟨tc', lens, hres, hfr, _, _⟩ := getOrderedTasks_ok (reachable_inv hr) hac
  refine ⟨sortByKey tc'.tasks, tc', hres, ?_, ?_⟩
  · have hs := List.sorted_insertionSort taskOrder tc'.tasks
    exact List.Pairwise.imp (fun hab => (taskOrder_iff _ _).mp hab) hs
  · intro a b hsub heq
    exact List.pair_sublist_insertionSort ((taskOrder_iff a b).mpr (le_of_eq heq.symm)) hsub

/-! ### Claims C3 and C9 -/

theorem no_path_to_target {tc : TaskCollection} {x : String}
    (h : ∀ t ∈ tc.tasks, x ∉ t.dependents) : ∀ a, ¬ DepPath tc a x := by
  have hedge : ∀ a, ¬ edgeTo tc a x := by
    intro a he
    unfold edgeTo at he
    cases hf : findTask tc a with
    | none => rw [dependentsOf_eq_nil_of_none hf] at he; simp at he
    | some t =>
      rw [dependentsOf_eq_of_findTask hf] at he
      exact h t (mem_of_findTask hf) he
  have key : ∀ a c, DepPath tc a c → c = x → False := by
    intro a c hp
    induction hp with
    | single he =>
      intro he2
      subst he2
      exact hedge _ he
    | cons he hp ih => exact ih
  exact fun a hp => key a x hp (Eq.refl x)

/-- Four tasks `D`, `A`, `B`, `C` (registered in that order) where `A` depends
on `D` and on `C`, `B` on `A`, and `C` on `B`: the dependents graph is
`D → A → B → C → A`, a three-task cycle entered through the tail task `D`. -/
def tcD3 : TaskCollection :=
  (addTask (addTask (addTask (addTask ⟨[]⟩ "D").1 "A").1 "B").1 "C").1

def tcD4 : TaskCollection := (addDependencies tcD3 "A" ["D", "C"]).1

def tcD5 : TaskCollection := (addDependencies tcD4 "B" ["A"]).1

def tcD : TaskCollection := (addDependencies tcD5 "C" ["B"]).1

theorem reachable_tcD3 : Reachable tcD3 :=
  @Reachable.addTask (addTask (addTask (addTask ⟨[]⟩ "D").1 "A").1 "B").1 tcD3 "C"
    (@Reachable.addTask (addTask (addTask ⟨[]⟩ "D").1 "A").1
        (addTask (addTask (addTask ⟨[]⟩ "D").1 "A").1 "B").1 "B"
      (@Reachable.addTask (addTask ⟨[]⟩ "D").1 (addTask (addTask ⟨[]⟩ "D").1 "A").1 "A"
        (@Reachable.addTask ⟨[]⟩ (addTask ⟨[]⟩ "D").1 "D" Reachable.empty (by decide))
        (by decide))
      (by decide))
    (by decide)

theorem reachable_tcD : Reachable tcD :=
  @Reachable.addDeps tcD5 tcD "C" ["B"]
    (@Reachable.addDeps tcD4 tcD5 "B" ["A"]
      (@Reachable.addDeps tcD3 tcD4 "A" ["D", "C"] reachable_tcD3 (by decide))
      (by decide))
    (by decide)

/-- C3, counterexample: on `tcD` the traversal enters the cycle `A → B → C → A`
through `D`, and the thrown message `["A", "C", "B", "A", "D"]` also names `D`,
which lies on no cycle — the message is not "exactly the tasks of the cycle". -/
theorem C3_counterexample :
    getOrderedTasks tcD = some (Except.error ["A", "C", "B", "A", "D"]) ∧
    "D" ∈ ["A", "C", "B", "A", "D"] ∧ ¬ DepPath tcD "D" "D" :=
  ⟨by rfl, by decide, no_path_to_target (by decide) "D"⟩

/-- C3, amended: on every reachable graph with a cycle, `getOrderedTasks()`
fails with a cyclic-dependency error; the message is the reversal of the
depth-first path walked from the traversal's entry task to the first task
found repeated on the path — a chain of `dependents` edges whose final task
already occurs earlier in it (so a cycle is a suffix of the path), possibly
preceded by entry-path tasks that are not on the cycle. -/
theorem C3_cycle_error (tc : TaskCollection) (hr : Reachable tc) (hnac : ¬ Acyclic tc) :
    ∃ e p t, getOrderedTasks tc = some (.error e) ∧ e = (p ++ [t]).reverse ∧
      List.Chain' (edgeTo tc) (p ++ [t]) ∧ t ∈ p ∧ DepPath tc t t := by
  obtain ⟨e, hcyc⟩ := check_cycle_of_not_acyclic (reachable_inv hr) hnac
  obtain ⟨p, t, he, hc, hm, hp⟩ := cycle_sound_top hcyc
  refine ⟨e, p, t, ?_, he, hc, hm, hp⟩
  unfold getOrderedTasks
  rw [hcyc]

/-- Tasks `A` and `B` depending on each other (a two-task cycle). -/
def tcW2 : TaskCollection := (addDependencies tcW "A" ["B"]).1

theorem reachable_tcW2 : Reachable tcW2 :=
  @Reachable.addDeps tcW tcW2 "A" ["B"] reachable_tcW (by decide)

theorem not_acyclic_tcW2 : ¬ Acyclic tcW2 :=
  fun hac => hac "A" (@DepPath.cons tcW2 "A" "B" "A" (by decide)
    (@DepPath.single tcW2 "B" "A" (by decide)))

theorem C3_cycle_error_witness :
    ∃ e p t, getOrderedTasks tcW2 = some (.error e) ∧ e = (p ++ [t]).reverse ∧
      List.Chain' (edgeTo tcW2) (p ++ [t]) ∧ t ∈ p ∧ DepPath tcW2 t t :=
  C3_cycle_error tcW2 reachable_tcW2 not_acyclic_tcW2

/-- C9: `addDependencies(name, [name])` on a registered task succeeds and
creates the self-edge in both sets; the cycle is only rejected later, when
`getOrderedTasks()` fails with the cyclic-dependency error. -/
theorem C9_self_dependency (tc : TaskCollection) (n : String)
    (hr : Reachable tc) (hn : hasTask tc n = true) :
    ∃ tc', addDependencies tc n [n] = (tc', none) ∧
      n ∈ dependenciesOf tc' n ∧ n ∈ dependentsOf tc' n ∧
      ∃ e, getOrderedTasks tc' = some (.error e) := by
  obtain ⟨t0, hf⟩ := Option.isSome_iff_exists.mp hn
  have hstep : addDependencies tc n [n] = (addEdge tc n n, none) := by
    unfold addDependencies
    rw [if_pos hn]
    show addDepsLoop n tc [n] = _
    unfold addDepsLoop
    rw [if_pos hn]
    rfl
  have hdepd : n ∈ dependentsOf (addEdge tc n n) n := by
    rw [dependentsOf_addEdge, if_pos (Eq.refl _), hf]
    exact mem_setAdd_self
  refine ⟨addEdge tc n n, hstep, ?_, hdepd, ?_⟩
  · rw [dependenciesOf_addEdge, if_pos (Eq.refl _), hf]
    exact mem_setAdd_self
  · have hr' : Reachable (addEdge tc n n) := Reachable.addDeps hr hstep
    have hnac : ¬ Acyclic (addEdge tc n n) :=
      fun hac => hac n (DepPath.single hdepd)
    obtain ⟨e, hcyc⟩ := check_cycle_of_not_acyclic (reachable_inv hr') hnac
    refine ⟨e, ?_⟩
    unfold getOrderedTasks
    rw [hcyc]

theorem C9_self_dependency_witness :
    hasTask tcAB "A" = true ∧
    ∃ tc', addDependencies tcAB "A" ["A"] = (tc', none) ∧
      "A" ∈ dependenciesOf tc' "A" ∧ "A" ∈ dependentsOf tc' "A" ∧
      ∃ e, getOrderedTasks tc' = some (.error e) :=
  ⟨by decide, C9_self_dependency tcAB "A" reachable_tcAB (by decide)⟩

/-! ### Remaining witnesses for C2, C4, C10 -/

theorem C2_critical_path_equations_witness :
    ∃ q tc', getOrderedTasks tcW = some (.ok (q, tc')) ∧
      ∀ t ∈ tc'.tasks, ∃ v, t.criticalPathLength = some v ∧
        (t.dependents = [] → v = 0) ∧
        (t.dependents ≠ [] →
          (∀ d ∈ t.dependents, (cplOf tc' d).isSome = true) ∧
          v = ((t.dependents.map (fun d => (cplOf tc' d).getD 0)).foldl Nat.max 0) + 1) :=
  C2_critical_path_equations tcW reachable_tcW acyclic_tcW

theorem C4_sorted_and_stable_witness :
    ∃ q tc', getOrderedTasks tcW = some (.ok (q, tc')) ∧
      q.Pairwise (fun a b => b.criticalPathLength.getD 0 ≤ a.criticalPathLength.getD 0) ∧
      (∀ a b : ITask, [a, b].Sublist tc'.tasks →
        a.criticalPathLength.getD 0 = b.criticalPathLength.getD 0 → [a, b].Sublist q) :=
  C4_sorted_and_stable tcW reachable_tcW acyclic_tcW

theorem C10_frame_only_cpl_witness :
    ∃ q tc', getOrderedTasks tcW = some (.ok (q, tc')) ∧
      tc'.tasks.map stripCPL = tcW.tasks.map stripCPL :=
  C10_frame_only_cpl tcW reachable_tcW acyclic_tcW

/-! ### Claim C6: the mutual-inverse invariant across all four operations -/

/-- The states produced by arbitrary sequences of the four public operations,
failed calls included (the post-state of a failed call is the first component
returned by the model).  `hasTask` is a pure lookup and changes nothing, so it
needs no constructor.  A completed `getOrderedTasks()` call yields its
post-registry; a `getOrderedTasks()` call that throws does so from
`_checkForCyclicDependencies`, which never touches the registry, so the state
is unchanged and needs no constructor either. -/
inductive OpReachable : TaskCollection → Prop
  | empty : OpReachable ⟨[]⟩
  | addTask {tc tc' : TaskCollection} {n : String} {e : Option TCError} :
      OpReachable tc → addTask tc n = (tc', e) → OpReachable tc'
  | addDeps {tc tc' : TaskCollection} {n : String} {ds : List String} {e : Option TCError} :
      OpReachable tc → addDependencies tc n ds = (tc', e) → OpReachable tc'
  | getOrdered {tc tc' : TaskCollection} {q : List ITask} :
      OpReachable tc → getOrderedTasks tc = some (.ok (q, tc')) → OpReachable tc'

theorem mutualInv_addTask {tc tc' : TaskCollection} {n : String} {e : Option TCError}
    (hmi : ∀ a b : String, b ∈ dependenciesOf tc a ↔ a ∈ dependentsOf tc b)
    (h : addTask tc n = (tc', e)) :
    ∀ a b : String, b ∈ dependenciesOf tc' a ↔ a ∈ dependentsOf tc' b := by
  unfold addTask at h
  split at h
  · simp only [Prod.mk.injEq] at h
    exact h.1 ▸ hmi
  · simp only [Prod.mk.injEq] at h
    intro a b
    rw [← h.1, dependenciesOf_addTask, dependentsOf_addTask]
    exact hmi a b

theorem mutualInv_addDepsLoop {n : String} :
    ∀ {ds : List String} {tc tc' : TaskCollection} {e : Option TCError},
      (∀ a b : String, b ∈ dependenciesOf tc a ↔ a ∈ dependentsOf tc b) →
      hasTask tc n = true → addDepsLoop n tc ds = (tc', e) →
      ∀ a b : String, b ∈ dependenciesOf tc' a ↔ a ∈ dependentsOf tc' b := by
  intro ds
  induction ds with
  | nil =>
    intro tc tc' e hmi _ h
    unfold addDepsLoop at h
    simp only [Prod.mk.injEq] at h
    exact h.1 ▸ hmi
  | cons d rest ih =>
    intro tc tc' e hmi hn h
    unfold addDepsLoop at h
    split at h
    · rename_i hd
      exact ih (mutualInv_addEdge hmi hn hd) (by rw [hasTask_addEdge]; exact hn) h
    · simp only [Prod.mk.injEq] at h
      exact h.1 ▸ hmi

theorem getOrderedTasks_ok_frame {tc tc' : TaskCollection} {q : List ITask}
    (h : getOrderedTasks tc = some (.ok (q, tc'))) : FrameEq tc tc' := by
  unfold getOrderedTasks at h
  cases hc : checkCyclicF tc (tcFuel tc) (taskNames tc) [] [] with
  | fuelOut => rw [hc] at h; simp at h
  | cycle e => rw [hc] at h; simp at h
  | ok checked =>
    rw [hc] at h
    cases hcalc : calcCPs tc (tcFuel tc) tc (taskNames tc) with
    | none => rw [hcalc] at h; simp at h
    | some p =>
      obtain ⟨tc2, lens⟩ := p
      rw [hcalc] at h
      simp only [Option.some.injEq, Except.ok.injEq, Prod.mk.injEq] at h
      rw [← h.2]
      exact (calc_props tc (tcFuel tc) tc (taskNames tc) tc2 lens hcalc).1

theorem opReachable_mutualInv {tc : TaskCollection} (h : OpReachable tc) :
    ∀ a b : String, b ∈ dependenciesOf tc a ↔ a ∈ dependentsOf tc b := by
  induction h with
  | empty =>
    intro a b
    have hda : findTask (⟨[]⟩ : TaskCollection) a = none := Eq.refl _
    have hdb : findTask (⟨[]⟩ : TaskCollection) b = none := Eq.refl _
    rw [dependenciesOf_eq_nil_of_none hda, dependentsOf_eq_nil_of_none hdb]
    simp
  | addTask _ hstep ih => exact mutualInv_addTask ih hstep
  | addDeps _ hstep ih =>
    rename_i tc₀ tc' n ds e
    unfold addDependencies at hstep
    split at hstep
    · rename_i hn
      exact mutualInv_addDepsLoop ih hn hstep
    · simp only [Prod.mk.injEq] at hstep
      exact hstep.1 ▸ ih
  | getOrdered _ hstep ih =>
    have hfr := getOrderedTasks_ok_frame hstep
    intro a b
    rw [← hfr.dependenciesOf_eq a, ← hfr.dependentsOf_eq b]
    exact ih a b

/-- C6: after every sequence of `addTask`, `addDependencies`, `hasTask` and
`getOrderedTasks` operations — failed calls included — the registry satisfies
the mutual-inverse invariant: `B ∈ A.dependencies ↔ A ∈ B.dependents`.
(`hasTask` is pure, and a throwing `getOrderedTasks` leaves the registry
untouched, so `OpReachable` covers exactly the states such sequences reach.) -/
theorem C6_dependencies_dependents_mutual_inverse (tc : TaskCollection)
    (h : OpReachable tc) (a b : String) :
    b ∈ dependenciesOf tc a ↔ a ∈ dependentsOf tc b :=
  opReachable_mutualInv h a b

theorem opReachable_tcW : OpReachable tcW :=
  @OpReachable.addDeps tcAB tcW "B" ["A"] none
    (@OpReachable.addTask (addTask ⟨[]⟩ "A").1 tcAB "B" none
      (@OpReachable.addTask ⟨[]⟩ (addTask ⟨[]⟩ "A").1 "A" none OpReachable.empty (by decide))
      (by decide))
    (by decide)

/-- The build queue and post-registry of a completed `getOrderedTasks()` run
on `tcW` (tasks `A`, `B` with `B` depending on `A`). -/
def ordWO : List ITask :=
  match getOrderedTasks tcW with
  | some (.ok (q, _)) => q
  | _ => []

def tcWO : TaskCollection :=
  match getOrderedTasks tcW with
  | some (.ok (_, tc')) => tc'
  | _ => tcW

theorem opReachable_tcWO : OpReachable tcWO :=
  @OpReachable.getOrdered tcW tcWO ordWO opReachable_tcW (by rfl)

theorem C6_dependencies_dependents_mutual_inverse_witness :
    "A" ∈ dependenciesOf tcWO "B" ↔ "B" ∈ dependentsOf tcWO "A" :=
  C6_dependencies_dependents_mutual_inverse tcWO opReachable_tcWO "B" "A"
